import Mathlib

set_option maxHeartbeats 1000000
set_option maxRecDepth 100000

/-
Shallow embedding of the Scrabble game core from
`src/L5 - Games as Adversarial Search/L5_utils.py`.

Modelling conventions:
* A board cell is an `Option Char` (`none` = the empty string `""`).
  The board is a total function `Nat → Nat → Option Char`; Python's
  `temp_board[r][c] = letter` becomes functional override (`set_cell`).
* Words are `List Char` (Python strings of uppercase letters).
* The dictionary (`is_valid_word`, loaded from `words.txt`, which is not part
  of the repository) is an abstract membership oracle, passed as a function
  parameter `is_valid_word : List Char → Bool`.
* Python's global `random` module is modelled as an oracle stream
  `rnd : Nat → Nat` together with an explicit position that is threaded
  through the stateful functions; `random.choice(pool)` reads
  `rnd pos % pool.length` and advances the position.
* Machine integers do not overflow in this program (Python has big ints),
  so scores are `Nat` and utilities are `Int`.
-/

namespace Scrabble

/-- Point value of each letter, from `LETTER_VALUES` (`dict.get(letter, 0)`
defaults to 0 for anything else, including the empty cell). -/
def LETTER_VALUES : Char → Nat
  | 'A' => 1 | 'B' => 3 | 'C' => 3 | 'D' => 2 | 'E' => 1 | 'F' => 4
  | 'G' => 2 | 'H' => 4 | 'I' => 1 | 'J' => 8 | 'K' => 5 | 'L' => 1
  | 'M' => 3 | 'N' => 1 | 'O' => 1 | 'P' => 3 | 'Q' => 10 | 'R' => 1
  | 'S' => 1 | 'T' => 1 | 'U' => 1 | 'V' => 4 | 'W' => 4 | 'X' => 8
  | 'Y' => 4 | 'Z' => 10 | '_' => 0
  | _ => 0

def BOARD_SIZE : Nat := 15

def RACK_SIZE : Nat := 7

/-- `PREMIUM_BOARD`: 0 = none, 2 = double letter, 3 = triple letter,
4 = double word, 5 = triple word. -/
def PREMIUM_BOARD : List (List Nat) := [
  [0, 2, 0, 0, 0, 0, 0, 0, 0, 0, 0, 0, 0, 2, 0],
  [2, 0, 0, 0, 0, 3, 0, 0, 0, 3, 0, 0, 0, 0, 2],
  [0, 0, 4, 0, 0, 0, 2, 0, 2, 0, 0, 0, 4, 0, 0],
  [0, 0, 0, 5, 0, 0, 0, 2, 0, 0, 0, 5, 0, 0, 0],
  [0, 0, 0, 0, 4, 0, 0, 0, 0, 0, 4, 0, 0, 0, 0],
  [0, 3, 0, 0, 0, 3, 0, 0, 0, 3, 0, 0, 0, 3, 0],
  [0, 0, 2, 0, 0, 0, 2, 0, 2, 0, 0, 0, 2, 0, 0],
  [0, 0, 0, 2, 0, 0, 0, 4, 0, 0, 0, 2, 0, 0, 0],
  [0, 0, 2, 0, 0, 0, 2, 0, 2, 0, 0, 0, 2, 0, 0],
  [0, 3, 0, 0, 0, 3, 0, 0, 0, 3, 0, 0, 0, 3, 0],
  [0, 0, 0, 0, 4, 0, 0, 0, 0, 0, 4, 0, 0, 0, 0],
  [0, 0, 0, 5, 0, 0, 0, 2, 0, 0, 0, 5, 0, 0, 0],
  [0, 0, 4, 0, 0, 0, 2, 0, 2, 0, 0, 0, 4, 0, 0],
  [2, 0, 0, 0, 0, 3, 0, 0, 0, 3, 0, 0, 0, 0, 2],
  [0, 2, 0, 0, 0, 0, 0, 0, 0, 0, 0, 0, 0, 2, 0]]

/-- `PREMIUM_BOARD[r][c]`. -/
def premium_at (r c : Nat) : Nat := (PREMIUM_BOARD.getD r []).getD c 0

/-- A board: `none` models the empty-cell string `""`. -/
abbrev Board := Nat → Nat → Option Char

/-- `Move` (tiles_placed is the list of `(row, col, letter)` triples). -/
structure Move where
  tiles_placed : List (Nat × Nat × Char)
  score : Nat
  is_pass : Bool
deriving DecidableEq

/-- The pass move `Move([], 0, is_pass=True)`. -/
def pass_move : Move := ⟨[], 0, true⟩

/-- `ScrabbleState` (the `racks` dict `{1: …, 2: …}` is split into two
fields, and the two `scores` entries likewise). -/
structure ScrabbleState where
  board : Board
  tile_pool : List Char
  rack1 : List Char
  rack2 : List Char
  current_player : Nat
  score1 : Nat
  score2 : Nat
  passes_in_a_row : Nat

/-- `self.racks[p]` for `p ∈ {1, 2}`. -/
def rack_of (s : ScrabbleState) (p : Nat) : List Char :=
  if p = 1 then s.rack1 else s.rack2

/-- `self.scores[p]` for `p ∈ {1, 2}`. -/
def score_of (s : ScrabbleState) (p : Nat) : Nat :=
  if p = 1 then s.score1 else s.score2

/-- `board[r][c] = letter` as functional override. -/
def set_cell (b : Board) (r c : Nat) (l : Char) : Board :=
  fun r' c' => if r' = r ∧ c' = c then some l else b r' c'

/-- `for r, c, letter in tiles_placed: board[r][c] = letter`. -/
def place_tiles (b : Board) (tiles : List (Nat × Nat × Char)) : Board :=
  tiles.foldl (fun bb t => set_cell bb t.1 t.2.1 t.2.2) b

/-- `while start_col > 0 and board[row][start_col - 1] != "": start_col -= 1`. -/
def scan_left (b : Board) (r : Nat) : Nat → Nat
  | 0 => 0
  | c + 1 => if (b r c).isSome then scan_left b r c else c + 1

/-- Fuel-based helper for `scan_right`: the fuel is the remaining distance
`BOARD_SIZE - 1 - c` to the right edge, so running out of fuel is exactly
the loop guard `end_col < BOARD_SIZE - 1` failing. -/
def scan_right_aux (b : Board) (r : Nat) : Nat → Nat → Nat
  | 0, c => c
  | fuel + 1, c => if (b r (c + 1)).isSome then scan_right_aux b r fuel (c + 1) else c

/-- `while end_col < BOARD_SIZE - 1 and board[row][end_col + 1] != "": end_col += 1`. -/
def scan_right (b : Board) (r c : Nat) : Nat :=
  scan_right_aux b r (BOARD_SIZE - 1 - c) c

/-- `while start_row > 0 and board[start_row - 1][col] != "": start_row -= 1`. -/
def scan_up (b : Board) (c : Nat) : Nat → Nat
  | 0 => 0
  | r + 1 => if (b r c).isSome then scan_up b c r else r + 1

/-- Fuel-based helper for `scan_down`; see `scan_right_aux`. -/
def scan_down_aux (b : Board) (c : Nat) : Nat → Nat → Nat
  | 0, r => r
  | fuel + 1, r => if (b (r + 1) c).isSome then scan_down_aux b c fuel (r + 1) else r

/-- `while end_row < BOARD_SIZE - 1 and board[end_row + 1][col] != "": end_row += 1`. -/
def scan_down (b : Board) (c r : Nat) : Nat :=
  scan_down_aux b c (BOARD_SIZE - 1 - r) r

/-- `ScrabbleState._get_word_at`: the maximal contiguous run of filled cells
through `(row, col)` in the given orientation (the `"".join` skips nothing
because every cell in the scanned range is filled; empty cells would
contribute nothing, exactly like joining `""`). -/
def get_word_at (b : Board) (row col : Nat) (horizontal : Bool) : List Char :=
  if horizontal then
    let s := scan_left b row col
    let e := scan_right b row col
    (List.range (e + 1 - s)).filterMap (fun i => b row (s + i))
  else
    let s := scan_up b col row
    let e := scan_down b col row
    (List.range (e + 1 - s)).filterMap (fun i => b (s + i) col)

/-- Did this move newly place a tile at `(r, c)`?
(`any(r == row and col == c for r, col, l in tiles_placed)`). -/
def placed_at (tiles : List (Nat × Nat × Char)) (r c : Nat) : Bool :=
  tiles.any (fun t => t.1 = r ∧ t.2.1 = c)

/-- One step of the main-word scoring loop: given the accumulated
`(word_score, word_multiplier)` pair, add the letter at the cell, applying its
premium when the tile at the cell was newly placed. -/
def score_cell (temp : Board) (tiles : List (Nat × Nat × Char)) (r c : Nat)
    (acc : Nat × Nat) : Nat × Nat :=
  let ls := match temp r c with
    | some l => LETTER_VALUES l
    | none => 0
  if placed_at tiles r c then
    let p := premium_at r c
    if p = 2 then (acc.1 + ls * 2, acc.2)
    else if p = 3 then (acc.1 + ls * 3, acc.2)
    else if p = 4 then (acc.1 + ls, acc.2 * 2)
    else if p = 5 then (acc.1 + ls, acc.2 * 3)
    else (acc.1 + ls, acc.2)
  else (acc.1 + ls, acc.2)

/-- The cross-word contribution of one placed tile `(row, col, _)`
(the two symmetric `# Score cross-words` branches of `_calculate_score`;
the premium applies only at the newly placed cell itself). -/
def cross_score (temp : Board) (horizontal : Bool) (row col : Nat) : Nat :=
  if horizontal then
    let cw := get_word_at temp row col false
    if cw.length > 1 then
      let sr := scan_up temp col row
      let acc := (List.range cw.length).foldl
        (fun a i => score_cell temp [(row, col, 'A')] (sr + i) col a) (0, 1)
      acc.1 * acc.2
    else 0
  else
    let cw := get_word_at temp row col true
    if cw.length > 1 then
      let sc := scan_left temp row col
      let acc := (List.range cw.length).foldl
        (fun a i => score_cell temp [(row, col, 'A')] row (sc + i) a) (0, 1)
      acc.1 * acc.2
    else 0

/-- `ScrabbleState._calculate_score`.  The Python dead code for the
single-tile case (lines 557–563, ending in `pass`) has no effect and is
omitted.  `horizontal = len(set(rows)) == 1` becomes "all rows equal the
first row".  `min(cols)`/`max(cols)` are folds over the (nonempty) list. -/
def calculate_score (b : Board) (tiles : List (Nat × Nat × Char)) : Nat :=
  match tiles with
  | [] => 0
  | t0 :: _ =>
    let rows := tiles.map (·.1)
    let cols := tiles.map (·.2.1)
    let horizontal := rows.all (· = t0.1)
    let temp := place_tiles b tiles
    let main :=
      if horizontal then
        let row := t0.1
        let start_col := scan_left temp row (cols.foldl Nat.min t0.2.1)
        let end_col := scan_right temp row (cols.foldl Nat.max t0.2.1)
        let acc := (List.range (end_col + 1 - start_col)).foldl
          (fun a i => score_cell temp tiles row (start_col + i) a) (0, 1)
        acc.1 * acc.2
      else
        let col := t0.2.1
        let start_row := scan_up temp col (rows.foldl Nat.min t0.1)
        let end_row := scan_down temp col (rows.foldl Nat.max t0.1)
        let acc := (List.range (end_row + 1 - start_row)).foldl
          (fun a i => score_cell temp tiles (start_row + i) col a) (0, 1)
        acc.1 * acc.2
    let crosses := tiles.foldl (fun a t => a + cross_score temp horizontal t.1 t.2.1) 0
    main + crosses + (if tiles.length = 7 then 50 else 0)

/-- `ScrabbleState._validate_placement`: every perpendicular cross-word of
length > 1 through a newly placed tile must be dictionary-valid
(`not (len > 1 and not valid)` is written as `len ≤ 1 or valid`). -/
def validate_placement (is_valid_word : List Char → Bool) (b : Board)
    (tiles : List (Nat × Nat × Char)) (horizontal : Bool) : Bool :=
  let temp := place_tiles b tiles
  tiles.all fun t =>
    let cw := get_word_at temp t.1 t.2.1 (!horizontal)
    decide (cw.length ≤ 1) || is_valid_word cw

/-- Each element of a list together with the list of remaining elements
(distinguishing equal-valued occurrences), in index order. -/
def picks : List α → List (α × List α)
  | [] => []
  | x :: xs => (x, xs) :: (picks xs).map (fun p => (p.1, x :: p.2))

/-- `itertools.permutations(l, k)`: all orderings of `k` elements of `l`
taken at distinct indices (duplicated letters yield duplicated
permutations), in index-lexicographic order. -/
def perms : List α → Nat → List (List α)
  | _, 0 => [[]]
  | l, k + 1 => (picks l).flatMap (fun p => (perms p.2 k).map (p.1 :: ·))

/-- The duplicate-aware rack check: `rack_copy = rack[:]; for tile in
tiles_used: if tile in rack_copy: rack_copy.remove(tile) else: fail`. -/
def can_place_from_rack (rack : List Char) : List Char → Bool
  | [] => true
  | t :: ts => rack.contains t && can_place_from_rack (rack.erase t) ts

/-- The best-effort tile removal of `apply_move`: remove each placed letter
from the rack if it is there, silently skipping letters that are not. -/
def remove_each (rack : List Char) (ls : List Char) : List Char :=
  ls.foldl (fun r t => if r.contains t then r.erase t else r) rack

/-- The cell-by-cell placement loop of `_build_words_at_anchor` (horizontal):
walk the word left to right from `start_col`; an empty board cell receives a
new tile, a filled cell must match the permutation letter, otherwise the
candidate is rejected (`none`).  Returns the newly placed tiles. -/
def build_placement_h (b : Board) (row start_col : Nat) :
    Nat → List Char → Option (List (Nat × Nat × Char))
  | _, [] => some []
  | i, l :: ls =>
    match b row (start_col + i) with
    | none => (build_placement_h b row start_col (i + 1) ls).map
        (fun rest => (row, start_col + i, l) :: rest)
    | some c => if c = l then build_placement_h b row start_col (i + 1) ls else none

/-- Vertical version of `build_placement_h`. -/
def build_placement_v (b : Board) (col start_row : Nat) :
    Nat → List Char → Option (List (Nat × Nat × Char))
  | _, [] => some []
  | i, l :: ls =>
    match b (start_row + i) col with
    | none => (build_placement_v b col start_row (i + 1) ls).map
        (fun rest => (start_row + i, col, l) :: rest)
    | some c => if c = l then build_placement_v b col start_row (i + 1) ls else none

/-- One horizontal candidate of `_build_words_at_anchor`: the word `perm`
placed so that the anchor is letter number `anchor_pos` of the word.
`anchor_pos > anchor_col` models `start_col < 0`. -/
def candidate_h (is_valid_word : List Char → Bool) (b : Board) (rack : List Char)
    (anchor_row anchor_col : Nat) (word_len : Nat) (perm : List Char)
    (anchor_pos : Nat) : Option Move :=
  if anchor_pos > anchor_col then none
  else
    let start_col := anchor_col - anchor_pos
    if start_col + word_len > BOARD_SIZE then none
    else
      match build_placement_h b anchor_row start_col 0 perm with
      | none => none
      | some tiles_placed =>
        if tiles_placed = [] then none
        else if ¬ can_place_from_rack rack (tiles_placed.map (·.2.2)) then none
        else
          let temp := place_tiles b tiles_placed
          if ¬ is_valid_word (get_word_at temp anchor_row anchor_col true) then none
          else if ¬ validate_placement is_valid_word b tiles_placed true then none
          else some ⟨tiles_placed, calculate_score b tiles_placed, false⟩

/-- Vertical candidate of `_build_words_at_anchor`. -/
def candidate_v (is_valid_word : List Char → Bool) (b : Board) (rack : List Char)
    (anchor_row anchor_col : Nat) (word_len : Nat) (perm : List Char)
    (anchor_pos : Nat) : Option Move :=
  if anchor_pos > anchor_row then none
  else
    let start_row := anchor_row - anchor_pos
    if start_row + word_len > BOARD_SIZE then none
    else
      match build_placement_v b anchor_col start_row 0 perm with
      | none => none
      | some tiles_placed =>
        if tiles_placed = [] then none
        else if ¬ can_place_from_rack rack (tiles_placed.map (·.2.2)) then none
        else
          let temp := place_tiles b tiles_placed
          if ¬ is_valid_word (get_word_at temp anchor_row anchor_col false) then none
          else if ¬ validate_placement is_valid_word b tiles_placed false then none
          else some ⟨tiles_placed, calculate_score b tiles_placed, false⟩

/-- `ScrabbleState._build_words_at_anchor` for one orientation: word lengths
`2 … len(rack)`, rack permutations of that length forming a valid word, all
positions of the anchor within the word. -/
def build_words_at_anchor (is_valid_word : List Char → Bool) (b : Board)
    (rack : List Char) (anchor_row anchor_col : Nat) (horizontal : Bool) : List Move :=
  (List.range' 2 (rack.length + 1 - 2)).flatMap fun word_len =>
    (perms rack word_len).flatMap fun perm =>
      if is_valid_word perm then
        (List.range word_len).filterMap fun anchor_pos =>
          if horizontal then
            candidate_h is_valid_word b rack anchor_row anchor_col word_len perm anchor_pos
          else
            candidate_v is_valid_word b rack anchor_row anchor_col word_len perm anchor_pos
      else []

/-- `ScrabbleState._find_anchors`: empty cells orthogonally adjacent to at
least one filled cell (the neighbour offsets with their bounds checks). -/
def find_anchors (b : Board) : List (Nat × Nat) :=
  (List.range BOARD_SIZE).flatMap fun r =>
    (List.range BOARD_SIZE).filterMap fun c =>
      if (b r c).isNone ∧
          ((0 < r ∧ (b (r - 1) c).isSome) ∨ (r + 1 < BOARD_SIZE ∧ (b (r + 1) c).isSome) ∨
           (0 < c ∧ (b r (c - 1)).isSome) ∨ (c + 1 < BOARD_SIZE ∧ (b r (c + 1)).isSome)) then
        some (r, c)
      else none

/-- `ScrabbleState._generate_connected_moves`. -/
def generate_connected_moves (is_valid_word : List Char → Bool) (b : Board)
    (rack : List Char) : List Move :=
  (find_anchors b).flatMap fun a =>
    build_words_at_anchor is_valid_word b rack a.1 a.2 true ++
    build_words_at_anchor is_valid_word b rack a.1 a.2 false

/-- `ScrabbleState._generate_first_move`: every permutation of length
`2 … len(rack)` forming a valid word, placed horizontally and vertically in
each span that includes the center `(7, 7)`.  Python's
`range(max(0, center - length + 1), min(center + 1, BOARD_SIZE - length + 1))`
is reproduced with truncated subtraction, which agrees with the Python
integer arithmetic for every `length`.  `perm[i]` for `i < length` is
`perm.enum` because every permutation of length `length` has exactly
`length` letters. -/
def generate_first_move (is_valid_word : List Char → Bool) (b : Board)
    (rack : List Char) : List Move :=
  (List.range' 2 (rack.length + 1 - 2)).flatMap fun length =>
    (perms rack length).flatMap fun perm =>
      if is_valid_word perm then
        ((List.range' (max 0 (7 + 1 - length))
            (min (7 + 1) (BOARD_SIZE + 1 - length) - max 0 (7 + 1 - length))).filterMap
          fun start_col =>
            if start_col ≤ 7 ∧ 7 < start_col + length then
              some (Move.mk (perm.enum.map (fun p => (7, start_col + p.1, p.2)))
                (calculate_score b (perm.enum.map (fun p => (7, start_col + p.1, p.2)))) false)
            else none) ++
        ((List.range' (max 0 (7 + 1 - length))
            (min (7 + 1) (BOARD_SIZE + 1 - length) - max 0 (7 + 1 - length))).filterMap
          fun start_row =>
            if start_row ≤ 7 ∧ 7 < start_row + length then
              some (Move.mk (perm.enum.map (fun p => (start_row + p.1, 7, p.2)))
                (calculate_score b (perm.enum.map (fun p => (start_row + p.1, 7, p.2)))) false)
            else none)
      else []

/-- `ScrabbleState.is_terminal`: pool empty or two consecutive passes. -/
def is_terminal (s : ScrabbleState) : Bool :=
  s.tile_pool.length == 0 || decide (2 ≤ s.passes_in_a_row)

/-- `all(self.board[r][c] == "" for r in range(15) for c in range(15))`. -/
def board_empty (b : Board) : Bool :=
  (List.range BOARD_SIZE).all fun r =>
    (List.range BOARD_SIZE).all fun c => (b r c).isNone

/-- `ScrabbleState.get_legal_moves`. -/
def get_legal_moves (is_valid_word : List Char → Bool) (s : ScrabbleState)
    (player_id : Nat) : List Move :=
  if is_terminal s then []
  else
    let rack := rack_of s player_id
    (if board_empty s.board then
        generate_first_move is_valid_word s.board rack
      else
        generate_connected_moves is_valid_word s.board rack) ++ [pass_move]

/-- `ScrabbleState._draw_tiles`: draw up to `count` tiles (or until the pool
is empty).  `random.choice(pool)` picks the value at index
`rnd pos % pool.length`; `pool.remove(tile)` erases the first occurrence of
that value.  Returns `(drawn, remaining pool, next stream position)`. -/
def draw_tiles (rnd : Nat → Nat) : Nat → Nat → List Char → List Char × List Char × Nat
  | pos, 0, pool => ([], pool, pos)
  | pos, count + 1, pool =>
    if pool.isEmpty then ([], pool, pos)
    else
      let t := pool.getD (rnd pos % pool.length) 'A'
      let r := draw_tiles rnd (pos + 1) count (pool.erase t)
      (t :: r.1, r.2.1, r.2.2)

/-- `scores[p] += n` on the split score fields. -/
def add_score (s : ScrabbleState) (p : Nat) (n : Nat) : ScrabbleState :=
  if p = 1 then { s with score1 := s.score1 + n } else { s with score2 := s.score2 + n }

/-- `racks[p] = r` on the split rack fields. -/
def set_rack (s : ScrabbleState) (p : Nat) (r : List Char) : ScrabbleState :=
  if p = 1 then { s with rack1 := r } else { s with rack2 := r }

/-- `ScrabbleState.apply_move`: returns the next state (the input is never
mutated — automatic here since the embedding is purely functional) together
with the advanced random-stream position. -/
def apply_move (s : ScrabbleState) (m : Move) (rnd : Nat → Nat) (pos : Nat) :
    ScrabbleState × Nat :=
  let opponent_id := 3 - s.current_player
  if m.is_pass then
    ({ s with current_player := opponent_id,
              passes_in_a_row := s.passes_in_a_row + 1 }, pos)
  else
    let mover := s.current_player
    let board' := place_tiles s.board m.tiles_placed
    let rack_after := remove_each (rack_of s mover) (m.tiles_placed.map (·.2.2))
    let dr := draw_tiles rnd pos m.tiles_placed.length s.tile_pool
    let s' := { s with board := board', tile_pool := dr.2.1,
                       current_player := opponent_id, passes_in_a_row := 0 }
    (set_rack (add_score s' mover m.score) mover (rack_after ++ dr.1), dr.2.2)

/-- `ScrabbleState.get_utility`: score differential for the maximizer. -/
def get_utility (s : ScrabbleState) (maximizing_player_id : Nat) : Int :=
  (score_of s maximizing_player_id : Int) - (score_of s (3 - maximizing_player_id) : Int)

/-- The standard 100-tile distribution of `create_new_game`. -/
def standard_pool : List Char :=
  ("AAAAAAAAA" ++ "BB" ++ "CC" ++ "DDDD" ++ "EEEEEEEEEEEE" ++ "FF" ++ "GGG" ++
   "HH" ++ "IIIIIIIII" ++ "J" ++ "K" ++ "LLLL" ++ "MM" ++ "NNNNNN" ++
   "OOOOOOOO" ++ "PP" ++ "Q" ++ "RRRRRR" ++ "SSSS" ++ "TTTTTT" ++ "UUUU" ++
   "VV" ++ "WW" ++ "X" ++ "YY" ++ "Z" ++ "__").toList

/-- `rack.append(tile_pool.pop())` iterated: pop `k` tiles from the end of
the pool (stopping early on an empty pool), returning the popped tiles in
pop order and the remaining pool. -/
def pop_rack : Nat → List Char → List Char × List Char
  | 0, pool => ([], pool)
  | k + 1, pool =>
    if pool.isEmpty then ([], pool)
    else
      let r := pop_rack k pool.dropLast
      (pool.getLastD 'A' :: r.1, r.2)

/-- `ScrabbleState.create_new_game`, parameterized by the shuffled pool
(`random.shuffle` produces some permutation of `standard_pool`; the
permutation hypothesis is imposed where reachability is defined). -/
def create_new_game (shuffled : List Char) : ScrabbleState :=
  let d1 := pop_rack RACK_SIZE shuffled
  let d2 := pop_rack RACK_SIZE d1.2
  { board := fun _ _ => none, tile_pool := d2.2, rack1 := d1.1, rack2 := d2.1,
    current_player := 1, score1 := 0, score2 := 0, passes_in_a_row := 0 }

/-- Number of filled cells on the board. -/
def board_tile_count (b : Board) : Nat :=
  ∑ r in Finset.range BOARD_SIZE, ∑ c in Finset.range BOARD_SIZE,
    if (b r c).isSome then 1 else 0

/-- `Σ rack sizes + |pool| + tiles on board`. -/
def total_tiles (s : ScrabbleState) : Nat :=
  s.rack1.length + s.rack2.length + s.tile_pool.length + board_tile_count s.board

/-- States reachable from `create_new_game` (over any shuffle of the
standard pool and any resolution of the random draws) by repeatedly
applying moves returned by `get_legal_moves` for the current player. -/
inductive Reachable (is_valid_word : List Char → Bool) : ScrabbleState → Prop where
  | base : ∀ shuffled : List Char, shuffled.Perm standard_pool →
      Reachable is_valid_word (create_new_game shuffled)
  | step : ∀ (s : ScrabbleState) (m : Move) (rnd : Nat → Nat) (pos : Nat),
      Reachable is_valid_word s →
      m ∈ get_legal_moves is_valid_word s s.current_player →
      Reachable is_valid_word (apply_move s m rnd pos).1

/-! ### Alpha-beta minimax (`AlphaBetaMinimax`)

The values are `float('-inf')/float('inf')` and exact integer score
differentials, modelled by `ℤ` extended with `⊥` and `⊤`.

In the Python code every call to `apply_move` draws replacement tiles from
the global random stream; the game tree that a search explores is the tree
determined by the successor function `app : state → move → state` obtained
by resolving those draws, so the search definitions are parameterized by
`app` (any instantiation, e.g. `fun s m => (apply_move s m rnd pos).1`,
fixes one such tree). -/

/-- Search values: integers together with `float('-inf')` and `float('inf')`. -/
abbrev EV := WithBot (WithTop Int)

/-- `get_utility` as a search value. -/
def utilV (s : ScrabbleState) (p : Nat) : EV := ((get_utility s p : WithTop Int) : EV)

/-- The Max-player loop of `_minimax_value`: `value = max(value, eval)`,
`alpha = max(alpha, value)`, break (returning `value`) once `alpha >= beta`. -/
def ab_max_loop (eval : Move → EV → EV) (β : EV) : List Move → EV → EV → EV
  | [], value, _ => value
  | m :: rest, value, α =>
    let v := max value (eval m α)
    let α' := max α v
    if β ≤ α' then v else ab_max_loop eval β rest v α'

/-- The Min-player loop of `_minimax_value`: `value = min(value, eval)`,
`beta = min(beta, value)`, break (returning `value`) once `alpha >= beta`. -/
def ab_min_loop (eval : Move → EV → EV) (α : EV) : List Move → EV → EV → EV
  | [], value, _ => value
  | m :: rest, value, β =>
    let v := min value (eval m β)
    let β' := min β v
    if β' ≤ α then v else ab_min_loop eval α rest v β'

/-- `AlphaBetaMinimax._minimax_value` over the game tree given by `app`
(at depth 0 the terminal test is irrelevant: both branches return the
static utility). -/
def minimax_value (app : ScrabbleState → Move → ScrabbleState)
    (is_valid_word : List Char → Bool) (maximizing_player_id : Nat) :
    Nat → ScrabbleState → EV → EV → EV
  | 0, s, _, _ => utilV s maximizing_player_id
  | depth + 1, s, α, β =>
    if is_terminal s then utilV s maximizing_player_id
    else
      let moves := get_legal_moves is_valid_word s s.current_player
      if s.current_player = maximizing_player_id then
        ab_max_loop
          (fun m a => minimax_value app is_valid_word maximizing_player_id depth (app s m) a β)
          β moves ⊥ α
      else
        ab_min_loop
          (fun m b => minimax_value app is_valid_word maximizing_player_id depth (app s m) α b)
          α moves ⊤ β

/-- The root loop of `AlphaBetaMinimax.find_best_move`: keep the move whose
value is strictly greater than the best so far (ties keep the first), then
`alpha = max(alpha, best_value)`. -/
def ab_root_loop (eval : Move → EV → EV) :
    List Move → Option Move → EV → EV → Option Move × EV
  | [], best_move, best_value, _ => (best_move, best_value)
  | m :: rest, best_move, best_value, α =>
    let value := eval m α
    let bm := if best_value < value then some m else best_move
    let bv := if best_value < value then value else best_value
    ab_root_loop eval rest bm bv (max α bv)

/-- `AlphaBetaMinimax.find_best_move` over the game tree given by `app`,
returning the selected root move together with the best root value. -/
def ab_find_best_move (app : ScrabbleState → Move → ScrabbleState)
    (is_valid_word : List Char → Bool) (max_depth : Nat) (s : ScrabbleState) :
    Option Move × EV :=
  let current_player := s.current_player
  let moves := get_legal_moves is_valid_word s current_player
  if moves = [] then (some pass_move, ⊥)
  else
    ab_root_loop
      (fun m a => minimax_value app is_valid_word current_player (max_depth - 1) (app s m) a ⊤)
      moves none ⊥ ⊥

/-- Modelled from the spec: a brute-force depth-limited minimax evaluation
of the same game tree without pruning ("standard alternating min/max driven
by `state.current_player`", utility at cutoff or terminal nodes). -/
def brute_force_value (app : ScrabbleState → Move → ScrabbleState)
    (is_valid_word : List Char → Bool) (maximizing_player_id : Nat) :
    Nat → ScrabbleState → EV
  | 0, s => utilV s maximizing_player_id
  | depth + 1, s =>
    if is_terminal s then utilV s maximizing_player_id
    else
      let moves := get_legal_moves is_valid_word s s.current_player
      if s.current_player = maximizing_player_id then
        moves.foldl
          (fun v m => max v (brute_force_value app is_valid_word maximizing_player_id depth (app s m))) ⊥
      else
        moves.foldl
          (fun v m => min v (brute_force_value app is_valid_word maximizing_player_id depth (app s m))) ⊤

/-- Modelled from the spec: the root selection of a brute-force minimax,
keeping the first-encountered move of strictly greatest exact value. -/
def bf_root_loop (tval : Move → EV) : List Move → Option Move → EV → Option Move × EV
  | [], best_move, best_value => (best_move, best_value)
  | m :: rest, best_move, best_value =>
    let value := tval m
    bf_root_loop tval rest (if best_value < value then some m else best_move)
      (if best_value < value then value else best_value)

/-- Modelled from the spec: brute-force minimax move selection over the
same game tree. -/
def brute_force_find_best_move (app : ScrabbleState → Move → ScrabbleState)
    (is_valid_word : List Char → Bool) (max_depth : Nat) (s : ScrabbleState) :
    Option Move × EV :=
  let moves := get_legal_moves is_valid_word s s.current_player
  if moves = [] then (some pass_move, ⊥)
  else
    bf_root_loop
      (fun m => brute_force_value app is_valid_word s.current_player (max_depth - 1) (app s m))
      moves none ⊥

/-! ### Monte Carlo evaluator (`MonteCarlo`) -/

/-- The inner rollout loop of `MonteCarlo.find_best_move` for one candidate
move: each of the `playouts_per_move` iterations executes
`next_state = state.apply_move(move)` (advancing the global random stream)
and the heuristic is then invoked on that iteration's `next_state`.
Returns the list of states passed to the heuristic, in order, together
with the advanced stream position. -/
def mc_playout_states (rnd : Nat → Nat) (s : ScrabbleState) (m : Move) :
    Nat → Nat → List ScrabbleState × Nat
  | pos, 0 => ([], pos)
  | pos, k + 1 =>
    let r := apply_move s m rnd pos
    let rest := mc_playout_states rnd s m r.2 k
    (r.1 :: rest.1, rest.2)

/-- The per-move accumulation of `MonteCarlo.find_best_move`: for each move
run `playouts_per_move` playouts, average the heuristic values. -/
def mc_move_values (heuristic_fn : ScrabbleState → Nat → Rat) (rnd : Nat → Nat)
    (playouts_per_move : Nat) (s : ScrabbleState) :
    List Move → Nat → List (Move × Rat) × Nat
  | [], pos => ([], pos)
  | m :: rest, pos =>
    let ps := mc_playout_states rnd s m pos playouts_per_move
    let total := (ps.1.map (fun st => heuristic_fn st s.current_player)).foldl (· + ·) 0
    let r := mc_move_values heuristic_fn rnd playouts_per_move s rest ps.2
    ((m, total / (playouts_per_move : Rat)) :: r.1, r.2)

/-- `MonteCarlo.find_best_move` (heuristic values are reals, modelled as
`ℚ`; `int(num_playouts // len(moves)) or 1` is "at least one playout per
move"; `max(move_values, key=move_values.get)` keeps the first key of
strictly greatest value — the collapsing of duplicate eq-and-hash-equal
dictionary keys is immaterial here because duplicate generated moves get
identical entries appended in order). -/
def mc_find_best_move (is_valid_word : List Char → Bool)
    (heuristic_fn : ScrabbleState → Nat → Rat)
    (num_playouts : Nat) (rnd : Nat → Nat) (pos : Nat) (s : ScrabbleState) : Move :=
  let moves := get_legal_moves is_valid_word s s.current_player
  if moves = [] then pass_move
  else
    let playouts_per_move :=
      if num_playouts / moves.length = 0 then 1 else num_playouts / moves.length
    let mv := (mc_move_values heuristic_fn rnd playouts_per_move s moves pos).1
    match mv with
    | [] => pass_move
    | p0 :: rest => (rest.foldl (fun best p => if best.2 < p.2 then p else best) p0).1

/-! ### Concrete scenarios used by the claims -/

/-- A Lexicon in which exactly "CAT" and "CATS" are valid (claim C1). -/
def lexCATS : List Char → Bool := fun w => w == "CAT".toList || w == "CATS".toList

/-- Empty board, rack `{C,A,T,S,X,X,X}`, nonempty pool (claim C1). -/
def cats_state : ScrabbleState :=
  { board := fun _ _ => none, tile_pool := ['E'],
    rack1 := "CATSXXX".toList, rack2 := [],
    current_player := 1, score1 := 0, score2 := 0, passes_in_a_row := 0 }

/-- The emitted horizontal CATS-through-center move at columns 4–7. -/
def cats_move : Move := ⟨[(7, 4, 'C'), (7, 5, 'A'), (7, 6, 'T'), (7, 7, 'S')], 12, false⟩

/-- Board with "CAT" written vertically at rows 5–7 of column 7 (claim C6). -/
def c6_board : Board := place_tiles (fun _ _ => none) [(5, 7, 'C'), (6, 7, 'A'), (7, 7, 'T')]

/-- A Lexicon in which exactly "AA" is valid (claim C7). -/
def lexAA : List Char → Bool := fun w => w == "AA".toList

/-- Empty board with rack `{A,A}` (claim C7): the duplicated letter makes
`itertools.permutations` emit the word "AA" twice. -/
def aa_state : ScrabbleState :=
  { board := fun _ _ => none, tile_pool := ['B'], rack1 := ['A', 'A'], rack2 := [],
    current_player := 1, score1 := 0, score2 := 0, passes_in_a_row := 0 }

/-- A Lexicon in which exactly "CAT" is valid (claims C2, C8). -/
def lexCAT : List Char → Bool := fun w => w == "CAT".toList

/-- Empty board, rack `{C,A,T}`, pool `{E,O}` (claim C2). -/
def c2_state : ScrabbleState :=
  { board := fun _ _ => none, tile_pool := ['E', 'O'], rack1 := ['C', 'A', 'T'], rack2 := [],
    current_player := 1, score1 := 0, score2 := 0, passes_in_a_row := 0 }

/-- The horizontal CAT-through-center move at columns 5–7. -/
def c2_move : Move := ⟨[(7, 5, 'C'), (7, 6, 'A'), (7, 7, 'T')], 10, false⟩

/-- A random stream on which the two playouts of claim C2's scenario draw
the two pool tiles in different orders. -/
def c2_rnd : Nat → Nat := fun n => if n = 2 then 1 else 0

/-- A state whose rack contains no 'Z' (claim C8). -/
def c8_state : ScrabbleState :=
  { board := fun _ _ => none, tile_pool := ['B'], rack1 := ['A'], rack2 := [],
    current_player := 1, score1 := 0, score2 := 0, passes_in_a_row := 0 }

/-- An externally injected move placing a 'Z' the mover does not hold,
carrying an arbitrary claimed score (claim C8). -/
def c8_move : Move := ⟨[(7, 7, 'Z')], 99, false⟩

/-- A terminal state (empty pool) for witnesses. -/
def term_state : ScrabbleState :=
  { board := fun _ _ => none, tile_pool := [], rack1 := [], rack2 := [],
    current_player := 1, score1 := 0, score2 := 0, passes_in_a_row := 0 }

/-- Well-formedness of a generated placement with respect to the state it
was generated from: tiles are placed in bounds, on distinct and currently
empty cells, and the placed letters are jointly available in the rack
(a sub-multiset, witnessed by `List.Subperm`). -/
def placed_ok (s : ScrabbleState) (p : Nat) (m : Move) : Prop :=
  (∀ t ∈ m.tiles_placed, t.1 < BOARD_SIZE ∧ t.2.1 < BOARD_SIZE ∧ s.board t.1 t.2.1 = none) ∧
  (m.tiles_placed.map (fun t => (t.1, t.2.1))).Nodup ∧
  (m.tiles_placed.map (fun t => t.2.2)).Subperm (rack_of s p)

/-- `Move.__eq__`: `zip` truncates to the shorter tile list, so only the
common prefix of the two tile lists is compared; `score` and `is_pass`
are compared exactly. -/
def move_eq (a b : Move) : Bool :=
  ((a.tiles_placed.zip b.tiles_placed).all fun p => p.1 = p.2) &&
    a.score == b.score && a.is_pass == b.is_pass

/-- The tuple hashed by `Move.__hash__`: `(tuple(self.tiles_placed),
self.is_pass)` — the full tile list but not the score (Python's `hash` is
modelled by its input tuple; distinct tuples hash apart). -/
def move_hash_key (a : Move) : List (Nat × Nat × Char) × Bool :=
  (a.tiles_placed, a.is_pass)

/-! ## Theorems -/

/-- The CATS-through-center move is among the first moves generated for
the `{C,A,T,S,X,X,X}` rack (shared by claims C1 and C4). -/
theorem cats_move_mem : cats_move ∈ get_legal_moves lexCATS cats_state 1 := by
  decide

/-- C1 (counterexample): on the empty board the horizontal placement of
"CATS" through the center `(7,7)` scores `(3+1+1+1) × 2 = 12`, not
`1+1+1+1 = 4`: the letter C is worth 3 points and the center cell carries a
double-word premium (`PREMIUM_BOARD[7][7] = 4`). -/
theorem cats_score_twelve_not_four :
    calculate_score (fun _ _ => none) [(7, 4, 'C'), (7, 5, 'A'), (7, 6, 'T'), (7, 7, 'S')] = 12 ∧
    premium_at 7 7 = 4 ∧ LETTER_VALUES 'C' = 3 ∧ (12 : Nat) ≠ 4 := by
  decide

/-- C1 (amended): on the empty board with rack `{C,A,T,S,X,X,X}` and the
Lexicon `{CAT, CATS}`, the first-move generator emits the horizontal
placement of "CATS" whose span includes the center cell `(7,7)`, and the
score computed for it is `(3+1+1+1) × 2 = 12` (C is worth 3, and the
center's double-word premium doubles the word). -/
theorem first_move_emits_cats_through_center :
    cats_move ∈ get_legal_moves lexCATS cats_state 1 ∧
    cats_move.score = 12 ∧ cats_move.is_pass = false ∧
    (∃ t ∈ cats_move.tiles_placed, t.1 = 7 ∧ t.2.1 = 7) ∧
    cats_move.tiles_placed.map (fun t => t.2.2) = "CATS".toList := by
  exact ⟨cats_move_mem, rfl, rfl, ⟨(7, 7, 'S'), by decide, rfl, rfl⟩, rfl⟩

/-- C2 (counterexample): in the Monte Carlo playout loop the move is
re-applied on every playout iteration, and the successor states passed to
the heuristic need not be identical: with rack `{C,A,T}`, pool `{E,O}`, and
the random stream `c2_rnd`, the two playouts of the legal CAT move hand the
heuristic two states whose mover racks differ (`[E,O]` vs `[O,E]`). -/
theorem mc_playout_states_not_identical :
    c2_move ∈ get_legal_moves lexCAT c2_state 1 ∧
    (mc_playout_states c2_rnd c2_state c2_move 0 2).1.map (fun st => st.rack1) =
      [['E', 'O'], ['O', 'E']] ∧
    ((mc_playout_states c2_rnd c2_state c2_move 0 2).1.map (fun st => st.rack1)).Nodup := by
  decide

/-- C2 (amended): for every candidate move the Monte Carlo evaluator
applies the move once per playout iteration — `playouts_per_move` times in
total — and invokes the heuristic once on each iteration's own successor
state (so exactly `k` heuristic calls on `k` successor states, the first
being the successor of the first application; the successors are not
deduplicated and may differ when the random tile draws differ). -/
theorem mc_playout_states_spec (rnd : Nat → Nat) (s : ScrabbleState) (m : Move)
    (pos k : Nat) :
    (mc_playout_states rnd s m pos k).1.length = k ∧
    (mc_playout_states rnd s m pos k).1.head? =
      (if k = 0 then none else some (apply_move s m rnd pos).1) := by
  induction k generalizing pos with
  | zero => simp [mc_playout_states]
  | succ n ih => simp [mc_playout_states, (ih _).1]

/-- C6 (code bug): a single-tile placement extending the vertical word
"CAT" to "CATS" at `(8,7)` scores 7, not 6: the maximal horizontal run
through `(8,7)` has length 1 (the "absent axis"), yet `_calculate_score`
still scores it as the degenerate main word, adding the tile's letter value
(1 for S) on top of the vertical cross word worth `3+1+1+1 = 6`. -/
theorem single_tile_absent_axis_scored :
    calculate_score c6_board [(8, 7, 'S')] = 7 ∧
    get_word_at (place_tiles c6_board [(8, 7, 'S')]) 8 7 true = ['S'] ∧
    get_word_at (place_tiles c6_board [(8, 7, 'S')]) 8 7 false = ['C', 'A', 'T', 'S'] ∧
    (7 : Nat) ≠ 6 := by
  decide

/-- C7 (counterexample): the moves returned by `get_legal_moves` are not
distinct: on the empty board with rack `{A,A}` and Lexicon `{AA}`, the
state is non-terminal yet the returned list contains duplicate moves
(`itertools.permutations` distinguishes the two equal letters by index). -/
theorem get_legal_moves_duplicates :
    is_terminal aa_state = false ∧ ¬ (get_legal_moves lexAA aa_state 1).Nodup := by
  decide

/-- C7 (amended): `get_legal_moves` returns the empty list on a terminal
state; otherwise it returns a non-empty list of moves — possibly containing
duplicates — whose last element is the Pass move. -/
theorem get_legal_moves_shape (is_valid_word : List Char → Bool)
    (s : ScrabbleState) (p : Nat) :
    (is_terminal s = true → get_legal_moves is_valid_word s p = []) ∧
    (is_terminal s = false →
      get_legal_moves is_valid_word s p ≠ [] ∧
      (get_legal_moves is_valid_word s p).getLast? = some pass_move) := by
  constructor
  · intro h
    simp [get_legal_moves, h]
  · intro h
    unfold get_legal_moves
    simp only [h, Bool.false_eq_true, if_false]
    constructor
    · intro hc
      exact absurd hc (List.append_ne_nil_of_right_ne_nil _ (by simp))
    · rw [List.getLast?_concat]

/-- Witness for `get_legal_moves_shape` at concrete states. -/
theorem get_legal_moves_shape_witness :
    get_legal_moves lexAA term_state 1 = [] ∧ get_legal_moves lexAA aa_state 1 ≠ [] :=
  ⟨(get_legal_moves_shape lexAA term_state 1).1 (by decide),
   ((get_legal_moves_shape lexAA aa_state 1).2 (by decide)).1⟩

/-- C8 (counterexample): `apply_move` does not re-validate: applying a
Place move whose letter 'Z' is not in the acting player's rack `['A']`
silently writes the tile to the board and credits the claimed 99 points. -/
theorem apply_move_accepts_illegal :
    c8_state.rack1 = ['A'] ∧ c8_state.board 7 7 = none ∧ c8_state.score1 = 0 ∧
    (apply_move c8_state c8_move (fun _ => 0) 0).1.board 7 7 = some 'Z' ∧
    (apply_move c8_state c8_move (fun _ => 0) 0).1.score1 = 99 := by
  refine ⟨rfl, rfl, rfl, ?_, ?_⟩ <;> decide

/-- C8 (amended): `apply_move` performs no tiles-in-rack or word-legality
validation at all: for every state and non-pass move — legal or not — it
writes all the move's tiles onto the board and unconditionally adds the
move's claimed score to the acting player's score (letters missing from the
rack are simply skipped during rack removal). -/
theorem apply_move_no_validation (s : ScrabbleState) (m : Move) (rnd : Nat → Nat)
    (pos : Nat) (h : m.is_pass = false) :
    (apply_move s m rnd pos).1.board = place_tiles s.board m.tiles_placed ∧
    score_of (apply_move s m rnd pos).1 s.current_player =
      score_of s s.current_player + m.score := by
  by_cases hp : s.current_player = 1 <;>
    simp [apply_move, h, score_of, set_rack, add_score, hp]

/-- Witness for `apply_move_no_validation` on the concrete illegal move. -/
theorem apply_move_no_validation_witness :
    (apply_move c8_state c8_move (fun _ => 0) 0).1.board =
      place_tiles c8_state.board c8_move.tiles_placed ∧
    score_of (apply_move c8_state c8_move (fun _ => 0) 0).1 c8_state.current_player =
      score_of c8_state c8_state.current_player + c8_move.score :=
  apply_move_no_validation c8_state c8_move (fun _ => 0) 0 rfl

/-- C9: applying a Pass move returns a state with the same board, tile
pool, racks and scores, `passes_in_a_row` incremented by one, and the turn
handed to the opponent `3 - current_player` (the input state itself is a
pure value and is never mutated by the embedding, mirroring the copying
`apply_move` does). -/
theorem apply_move_pass_frame (s : ScrabbleState) (m : Move) (rnd : Nat → Nat)
    (pos : Nat) (h : m.is_pass = true) :
    (apply_move s m rnd pos).1.board = s.board ∧
    (apply_move s m rnd pos).1.tile_pool = s.tile_pool ∧
    (apply_move s m rnd pos).1.rack1 = s.rack1 ∧
    (apply_move s m rnd pos).1.rack2 = s.rack2 ∧
    (apply_move s m rnd pos).1.score1 = s.score1 ∧
    (apply_move s m rnd pos).1.score2 = s.score2 ∧
    (apply_move s m rnd pos).1.passes_in_a_row = s.passes_in_a_row + 1 ∧
    (apply_move s m rnd pos).1.current_player = 3 - s.current_player := by
  simp [apply_move, h]

/-- Witness for `apply_move_pass_frame`. -/
theorem apply_move_pass_frame_witness :
    (apply_move aa_state pass_move (fun _ => 0) 0).1.board = aa_state.board ∧
    (apply_move aa_state pass_move (fun _ => 0) 0).1.tile_pool = aa_state.tile_pool ∧
    (apply_move aa_state pass_move (fun _ => 0) 0).1.rack1 = aa_state.rack1 ∧
    (apply_move aa_state pass_move (fun _ => 0) 0).1.rack2 = aa_state.rack2 ∧
    (apply_move aa_state pass_move (fun _ => 0) 0).1.score1 = aa_state.score1 ∧
    (apply_move aa_state pass_move (fun _ => 0) 0).1.score2 = aa_state.score2 ∧
    (apply_move aa_state pass_move (fun _ => 0) 0).1.passes_in_a_row =
      aa_state.passes_in_a_row + 1 ∧
    (apply_move aa_state pass_move (fun _ => 0) 0).1.current_player =
      3 - aa_state.current_player :=
  apply_move_pass_frame aa_state pass_move (fun _ => 0) 0 rfl

/-- `zip` of a list with an extension of itself pairs equal elements. -/
theorem zip_append_all_eq (l t : List (Nat × Nat × Char)) :
    ((l.zip (l ++ t)).all fun p => p.1 = p.2) = true := by
  induction l with
  | nil => rfl
  | cons a l ih => simpa using ih

/-- C10: `Move.__eq__` compares `tiles_placed` only on the common prefix
(`zip` truncates): any two non-pass moves with equal scores where one tile
list is a prefix of the other (including the empty list) compare equal; and
moves that compare equal can nonetheless have different hash inputs, since
`__hash__` uses the full tile tuple but not the score. -/
theorem move_eq_ignores_tile_suffix :
    (∀ m1 m2 : Move, m1.is_pass = false → m2.is_pass = false → m1.score = m2.score →
      m1.tiles_placed <+: m2.tiles_placed → move_eq m1 m2 = true) ∧
    (move_eq ⟨[], 5, false⟩ ⟨[(1, 1, 'A')], 5, false⟩ = true ∧
      move_hash_key (⟨[], 5, false⟩ : Move) ≠ move_hash_key ⟨[(1, 1, 'A')], 5, false⟩) := by
  refine ⟨?_, by decide, by decide⟩
  intro m1 m2 h1 h2 hs ⟨t, ht⟩
  simp [move_eq, h1, h2, hs, ← ht, zip_append_all_eq]

/-- Witness for `move_eq_ignores_tile_suffix`. -/
theorem move_eq_ignores_tile_suffix_witness :
    move_eq ⟨[(0, 0, 'B')], 3, false⟩ ⟨[(0, 0, 'B'), (2, 2, 'C')], 3, false⟩ = true :=
  move_eq_ignores_tile_suffix.1 _ _ rfl rfl rfl ⟨[(2, 2, 'C')], rfl⟩

/-! ### Permutation and rack lemmas (towards tile conservation) -/

/-- Every permutation produced by `perms` has the requested length. -/
theorem perms_length {α : Type} : ∀ (k : Nat) (l l' : List α), l' ∈ perms l k → l'.length = k
  | 0, _, l', h => by
    simp only [perms, List.mem_singleton] at h
    simp [h]
  | k + 1, l, l', h => by
    simp only [perms, List.mem_flatMap, List.mem_map] at h
    obtain ⟨p, _, t, ht, rfl⟩ := h
    simp [perms_length k p.2 t ht]

/-- An element of `picks l` together with its residue is a permutation of `l`. -/
theorem picks_perm {α : Type} : ∀ (l : List α) (x : α) (ys : List α),
    (x, ys) ∈ picks l → (x :: ys).Perm l
  | [], _, _, h => by simp [picks] at h
  | a :: l, x, ys, h => by
    simp only [picks, List.mem_cons, List.mem_map] at h
    rcases h with h | ⟨p, hp, hpe⟩
    · simp only [Prod.mk.injEq] at h
      obtain ⟨rfl, rfl⟩ := h
      exact List.Perm.refl _
    · obtain ⟨px, pys⟩ := p
      simp only [Prod.mk.injEq] at hpe
      obtain ⟨rfl, rfl⟩ := hpe
      exact (List.Perm.swap a px pys).trans ((picks_perm l px pys hp).cons a)

/-- Every permutation produced by `perms` is a sub-multiset of the source. -/
theorem perms_subperm {α : Type} : ∀ (k : Nat) (l l' : List α),
    l' ∈ perms l k → l'.Subperm l
  | 0, _, l', h => by
    simp only [perms, List.mem_singleton] at h
    simp [h]
  | k + 1, l, l', h => by
    simp only [perms, List.mem_flatMap, List.mem_map] at h
    obtain ⟨p, hp, t, ht, rfl⟩ := h
    have h1 : (p.1 :: t).Subperm (p.1 :: p.2) :=
      (List.subperm_cons p.1).mpr (perms_subperm k p.2 t ht)
    exact h1.trans (picks_perm l p.1 p.2 hp).subperm

/-- The rack check of the generator certifies joint availability. -/
theorem can_place_subperm : ∀ (ls rack : List Char),
    can_place_from_rack rack ls = true → ls.Subperm rack
  | [], _, _ => List.nil_subperm
  | t :: ts, rack, h => by
    simp only [can_place_from_rack, Bool.and_eq_true] at h
    have ht : t ∈ rack := by simpa using h.1
    have h1 : (t :: ts).Subperm (t :: rack.erase t) :=
      (List.subperm_cons t).mpr (can_place_subperm ts (rack.erase t) h.2)
    exact h1.trans (List.perm_cons_erase ht).symm.subperm

/-- Splitting a sub-multiset relation at its head. -/
theorem subperm_cons_elim {t : Char} {ts rack : List Char}
    (h : (t :: ts).Subperm rack) : t ∈ rack ∧ ts.Subperm (rack.erase t) := by
  obtain ⟨l, hl, hs⟩ := h
  have ht : t ∈ rack := hs.subset (hl.mem_iff.mpr (List.mem_cons_self t ts))
  refine ⟨ht, ⟨l.erase t, ?_, hs.erase t⟩⟩
  simpa [List.erase_cons_head] using hl.erase t

/-- Removing jointly available letters removes one physical tile each. -/
theorem remove_each_length : ∀ (ls rack : List Char), ls.Subperm rack →
    (remove_each rack ls).length = rack.length - ls.length
  | [], rack, _ => by simp [remove_each]
  | t :: ts, rack, h => by
    obtain ⟨ht, hts⟩ := subperm_cons_elim h
    have hc : rack.contains t = true := by simpa using ht
    have heq : remove_each rack (t :: ts) = remove_each (rack.erase t) ts := by
      simp [remove_each, ht]
    rw [heq, remove_each_length ts (rack.erase t) hts,
      List.length_erase_of_mem ht]
    simp only [List.length_cons]
    omega

/-- `_draw_tiles` draws `min count |pool|` tiles and shrinks the pool by
exactly that amount. -/
theorem draw_tiles_lengths (rnd : Nat → Nat) : ∀ (count pos : Nat) (pool : List Char),
    (draw_tiles rnd pos count pool).1.length = min count pool.length ∧
    (draw_tiles rnd pos count pool).2.1.length = pool.length - min count pool.length
  | 0, pos, pool => by simp [draw_tiles]
  | count + 1, pos, pool => by
    by_cases hp : pool.isEmpty
    · have : pool = [] := by simpa using hp
      simp [draw_tiles, this]
    · have hne : pool ≠ [] := by simpa using hp
      have hlen : 0 < pool.length := List.length_pos.mpr hne
      have hidx : rnd pos % pool.length < pool.length := Nat.mod_lt _ hlen
      have hmem : pool.getD (rnd pos % pool.length) 'A' ∈ pool := by
        rw [List.getD_eq_getElem pool 'A' hidx]
        exact List.getElem_mem hidx
      have herase := List.length_erase_of_mem hmem
      have ih := draw_tiles_lengths rnd count (pos + 1)
        (pool.erase (pool.getD (rnd pos % pool.length) 'A'))
      simp only [draw_tiles, hp, Bool.false_eq_true, if_false]
      refine ⟨?_, ?_⟩
      · simp only [List.length_cons, ih.1, herase]
        omega
      · simp only [ih.2, herase]
        omega

/-- Popping `k` tiles from a sufficiently large pool yields `k` tiles. -/
theorem pop_rack_lengths : ∀ (k : Nat) (pool : List Char), k ≤ pool.length →
    (pop_rack k pool).1.length = k ∧ (pop_rack k pool).2.length = pool.length - k
  | 0, pool, _ => by simp [pop_rack]
  | k + 1, pool, h => by
    have hne : pool ≠ [] := by
      intro hc
      simp [hc] at h
    have hp : pool.isEmpty = false := by simpa using hne
    have hd : k ≤ pool.dropLast.length := by
      simp only [List.length_dropLast]
      omega
    have ih := pop_rack_lengths k pool.dropLast hd
    constructor
    · simp only [pop_rack, hp, Bool.false_eq_true, if_false, List.length_cons, ih.1]
    · simp only [pop_rack, hp, Bool.false_eq_true, if_false, ih.2, List.length_dropLast]
      omega

/-! ### Board-count lemmas -/

/-- Bumping one entry of a `Finset.range`-indexed sum by one. -/
theorem sum_range_update_add_one {n x : Nat} (hx : x < n) (g g' : Nat → Nat)
    (hothers : ∀ y, y ≠ x → g' y = g y) (hx1 : g' x = g x + 1) :
    ∑ y in Finset.range n, g' y = (∑ y in Finset.range n, g y) + 1 := by
  have hxm : x ∈ Finset.range n := Finset.mem_range.mpr hx
  rw [← Finset.sum_erase_add _ g' hxm, ← Finset.sum_erase_add _ g hxm]
  have he : ∑ y in (Finset.range n).erase x, g' y = ∑ y in (Finset.range n).erase x, g y :=
    Finset.sum_congr rfl (fun y hy => hothers y (Finset.ne_of_mem_erase hy))
  rw [he, hx1]
  omega

theorem set_cell_same (b : Board) (r c : Nat) (l : Char) :
    set_cell b r c l r c = some l := by
  simp [set_cell]

theorem set_cell_other (b : Board) (r c : Nat) (l : Char) (r' c' : Nat)
    (h : ¬(r' = r ∧ c' = c)) : set_cell b r c l r' c' = b r' c' := by
  simp [set_cell, h]

/-- Writing a letter into an empty in-bounds cell raises the tile count by one. -/
theorem board_tile_count_set_cell (b : Board) (r c : Nat) (l : Char)
    (hr : r < BOARD_SIZE) (hc : c < BOARD_SIZE) (hnone : b r c = none) :
    board_tile_count (set_cell b r c l) = board_tile_count b + 1 := by
  unfold board_tile_count
  apply sum_range_update_add_one hr
  · intro y hy
    apply Finset.sum_congr rfl
    intro z _
    rw [set_cell_other]
    exact fun hcon => hy hcon.1
  · apply sum_range_update_add_one hc
    · intro z hz
      rw [set_cell_other]
      exact fun hcon => hz hcon.2
    · rw [set_cell_same, hnone]
      simp

theorem place_tiles_cons (b : Board) (t : Nat × Nat × Char) (ts : List (Nat × Nat × Char)) :
    place_tiles b (t :: ts) = place_tiles (set_cell b t.1 t.2.1 t.2.2) ts := rfl

/-- Cells where no tile is placed keep their original content. -/
theorem place_tiles_not_mem : ∀ (tiles : List (Nat × Nat × Char)) (b : Board) (r c : Nat),
    (∀ t ∈ tiles, ¬(t.1 = r ∧ t.2.1 = c)) → place_tiles b tiles r c = b r c
  | [], _, _, _, _ => rfl
  | t :: ts, b, r, c, h => by
    rw [place_tiles_cons, place_tiles_not_mem ts _ r c (fun u hu => h u (List.mem_cons_of_mem t hu))]
    exact set_cell_other _ _ _ _ _ _
      (fun hcon => h t (List.mem_cons_self t ts) ⟨hcon.1.symm, hcon.2.symm⟩)

/-- With distinct positions, a cell where a tile is placed holds its letter. -/
theorem place_tiles_mem_eq : ∀ (tiles : List (Nat × Nat × Char)) (b : Board)
    (r c : Nat) (l : Char), (tiles.map (fun t => (t.1, t.2.1))).Nodup →
    (r, c, l) ∈ tiles → place_tiles b tiles r c = some l
  | t :: ts, b, r, c, l, hnd, hm => by
    rcases List.mem_cons.mp hm with h | h
    · subst h
      rw [place_tiles_cons, place_tiles_not_mem]
      · exact set_cell_same b r c l
      · intro u hu hcon
        have hnot := (List.nodup_cons.mp hnd).1
        apply hnot
        have hmm : (u.1, u.2.1) ∈ List.map (fun v => (v.1, v.2.1)) ts :=
          List.mem_map_of_mem (fun v => (v.1, v.2.1)) hu
        simpa [hcon.1, hcon.2] using hmm
    · exact place_tiles_mem_eq ts _ r c l (List.nodup_cons.mp hnd).2 h

theorem set_cell_ne_none (b : Board) (r c : Nat) (l : Char) (r' c' : Nat)
    (h : b r' c' ≠ none) : set_cell b r c l r' c' ≠ none := by
  unfold set_cell
  split
  · simp
  · exact h

/-- Placing tiles never empties a filled cell. -/
theorem place_tiles_ne_none_of_base : ∀ (tiles : List (Nat × Nat × Char)) (b : Board)
    (r c : Nat), b r c ≠ none → place_tiles b tiles r c ≠ none
  | [], _, _, _, h => h
  | t :: ts, b, r, c, h => by
    rw [place_tiles_cons]
    exact place_tiles_ne_none_of_base ts _ r c (set_cell_ne_none b _ _ _ r c h)

/-- A cell that receives a tile is filled afterwards. -/
theorem place_tiles_ne_none_of_mem : ∀ (tiles : List (Nat × Nat × Char)) (b : Board)
    (t : Nat × Nat × Char), t ∈ tiles → place_tiles b tiles t.1 t.2.1 ≠ none
  | u :: ts, b, t, hm => by
    rcases List.mem_cons.mp hm with h | h
    · subst h
      rw [place_tiles_cons]
      apply place_tiles_ne_none_of_base
      rw [set_cell_same]
      simp
    · rw [place_tiles_cons]
      exact place_tiles_ne_none_of_mem ts _ t h

/-- Placing tiles on distinct, in-bounds, currently empty cells raises the
board tile count by the number of tiles. -/
theorem board_tile_count_place_tiles : ∀ (tiles : List (Nat × Nat × Char)) (b : Board),
    (∀ t ∈ tiles, t.1 < BOARD_SIZE ∧ t.2.1 < BOARD_SIZE ∧ b t.1 t.2.1 = none) →
    (tiles.map (fun t => (t.1, t.2.1))).Nodup →
    board_tile_count (place_tiles b tiles) = board_tile_count b + tiles.length
  | [], _, _, _ => by simp [place_tiles]
  | t :: ts, b, hok, hnd => by
    have hht := hok t (List.mem_cons_self t ts)
    have hok2 : ∀ u ∈ ts, u.1 < BOARD_SIZE ∧ u.2.1 < BOARD_SIZE ∧
        (set_cell b t.1 t.2.1 t.2.2) u.1 u.2.1 = none := by
      intro u hu
      have huo := hok u (List.mem_cons_of_mem t hu)
      refine ⟨huo.1, huo.2.1, ?_⟩
      rw [set_cell_other _ _ _ _ _ _ ?_]
      · exact huo.2.2
      · intro hcon
        have hnot := (List.nodup_cons.mp hnd).1
        apply hnot
        have hmm : (u.1, u.2.1) ∈ List.map (fun v => (v.1, v.2.1)) ts :=
          List.mem_map_of_mem (fun v => (v.1, v.2.1)) hu
        simpa [hcon.1, hcon.2] using hmm
    rw [place_tiles_cons, board_tile_count_place_tiles ts _ hok2 (List.nodup_cons.mp hnd).2,
      board_tile_count_set_cell b t.1 t.2.1 t.2.2 hht.1 hht.2.1 hht.2.2]
    simp only [List.length_cons]
    omega

/-! ### Generator well-formedness -/

theorem BOARD_SIZE_eq : BOARD_SIZE = 15 := rfl

theorem board_empty_none {b : Board} (h : board_empty b = true) :
    ∀ r c, r < BOARD_SIZE → c < BOARD_SIZE → b r c = none := by
  intro r c hr hc
  simp only [board_empty, List.all_eq_true, List.mem_range] at h
  have := h r hr c hc
  simpa [Option.isNone_iff_eq_none] using this

/-- Facts established by the horizontal placement walk: every placed tile
sits on the walked row, inside the walked span, on an empty cell, and the
walk proceeds strictly left to right. -/
theorem build_placement_h_facts : ∀ (ls : List Char) (b : Board) (row sc i : Nat)
    (placed : List (Nat × Nat × Char)),
    build_placement_h b row sc i ls = some placed →
    (∀ t ∈ placed, t.1 = row ∧ sc + i ≤ t.2.1 ∧ t.2.1 < sc + i + ls.length ∧
      b t.1 t.2.1 = none) ∧
    placed.Pairwise (fun a b' => a.2.1 < b'.2.1)
  | [], b, row, sc, i, placed, h => by
    simp only [build_placement_h, Option.some.injEq] at h
    subst h
    simp
  | l :: ls, b, row, sc, i, placed, h => by
    simp only [build_placement_h] at h
    split at h
    next hcell =>
      simp only [Option.map_eq_some'] at h
      obtain ⟨rest, hrest, rfl⟩ := h
      obtain ⟨hmem, hpw⟩ := build_placement_h_facts ls b row sc (i + 1) rest hrest
      constructor
      · intro t ht
        rcases List.mem_cons.mp ht with rfl | ht
        · exact ⟨rfl, le_refl _, Nat.lt_add_of_pos_right (Nat.succ_pos _), hcell⟩
        · have hf := hmem t ht
          refine ⟨hf.1, by omega, ?_, hf.2.2.2⟩
          have h3 := hf.2.2.1
          simp only [List.length_cons]
          omega
      · refine List.pairwise_cons.mpr ⟨?_, hpw⟩
        intro t ht
        have h2 := (hmem t ht).2.1
        dsimp only
        omega
    next c hcell =>
      split at h
      next hcl =>
        subst hcl
        obtain ⟨hmem, hpw⟩ := build_placement_h_facts ls b row sc (i + 1) placed h
        refine ⟨?_, hpw⟩
        intro t ht
        have hf := hmem t ht
        refine ⟨hf.1, by omega, ?_, hf.2.2.2⟩
        have h3 := hf.2.2.1
        simp only [List.length_cons]
        omega
      next hcl => simp at h

/-- Vertical counterpart of `build_placement_h_facts`. -/
theorem build_placement_v_facts : ∀ (ls : List Char) (b : Board) (col sr i : Nat)
    (placed : List (Nat × Nat × Char)),
    build_placement_v b col sr i ls = some placed →
    (∀ t ∈ placed, t.2.1 = col ∧ sr + i ≤ t.1 ∧ t.1 < sr + i + ls.length ∧
      b t.1 t.2.1 = none) ∧
    placed.Pairwise (fun a b' => a.1 < b'.1)
  | [], b, col, sr, i, placed, h => by
    simp only [build_placement_v, Option.some.injEq] at h
    subst h
    simp
  | l :: ls, b, col, sr, i, placed, h => by
    simp only [build_placement_v] at h
    split at h
    next hcell =>
      simp only [Option.map_eq_some'] at h
      obtain ⟨rest, hrest, rfl⟩ := h
      obtain ⟨hmem, hpw⟩ := build_placement_v_facts ls b col sr (i + 1) rest hrest
      constructor
      · intro t ht
        rcases List.mem_cons.mp ht with rfl | ht
        · exact ⟨rfl, le_refl _, Nat.lt_add_of_pos_right (Nat.succ_pos _), hcell⟩
        · have hf := hmem t ht
          refine ⟨hf.1, by omega, ?_, hf.2.2.2⟩
          have h3 := hf.2.2.1
          simp only [List.length_cons]
          omega
      · refine List.pairwise_cons.mpr ⟨?_, hpw⟩
        intro t ht
        have h2 := (hmem t ht).2.1
        dsimp only
        omega
    next c hcell =>
      split at h
      next hcl =>
        subst hcl
        obtain ⟨hmem, hpw⟩ := build_placement_v_facts ls b col sr (i + 1) placed h
        refine ⟨?_, hpw⟩
        intro t ht
        have hf := hmem t ht
        refine ⟨hf.1, by omega, ?_, hf.2.2.2⟩
        have h3 := hf.2.2.1
        simp only [List.length_cons]
        omega
      next hcl => simp at h

/-- Tiles on one row with strictly increasing columns have distinct positions. -/
theorem pairwise_col_lt_nodup (placed : List (Nat × Nat × Char))
    (hpw : placed.Pairwise (fun a b' => a.2.1 < b'.2.1)) :
    (placed.map (fun t => (t.1, t.2.1))).Nodup := by
  rw [List.Nodup, List.pairwise_map]
  refine hpw.imp ?_
  intro a b' hlt
  intro hcon
  rw [Prod.mk.injEq] at hcon
  omega

/-- Tiles in one column with strictly increasing rows have distinct positions. -/
theorem pairwise_row_lt_nodup (placed : List (Nat × Nat × Char))
    (hpw : placed.Pairwise (fun a b' => a.1 < b'.1)) :
    (placed.map (fun t => (t.1, t.2.1))).Nodup := by
  rw [List.Nodup, List.pairwise_map]
  refine hpw.imp ?_
  intro a b' hlt
  intro hcon
  rw [Prod.mk.injEq] at hcon
  omega

/-- Every move emitted by a horizontal anchor candidate is well formed. -/
theorem candidate_h_ok (is_valid_word : List Char → Bool) (b : Board)
    (rack : List Char) (ar ac L : Nat) (perm : List Char) (apos : Nat) (m : Move)
    (hL : perm.length = L) (har : ar < BOARD_SIZE)
    (h : candidate_h is_valid_word b rack ar ac L perm apos = some m) :
    m.is_pass = false ∧ m.tiles_placed ≠ [] ∧
    (∀ t ∈ m.tiles_placed, t.1 < BOARD_SIZE ∧ t.2.1 < BOARD_SIZE ∧ b t.1 t.2.1 = none) ∧
    (m.tiles_placed.map (fun t => (t.1, t.2.1))).Nodup ∧
    (m.tiles_placed.map (fun t => t.2.2)).Subperm rack := by
  unfold candidate_h at h
  split at h
  · simp at h
  next hapos =>
    dsimp only at h
    split at h
    · simp at h
    next hfit =>
      cases hbp : build_placement_h b ar (ac - apos) 0 perm with
      | none => rw [hbp] at h; simp at h
      | some placed =>
        rw [hbp] at h
        split at h
        · simp at h
        next tiles heq =>
          obtain rfl : placed = tiles := Option.some.inj heq
          split at h
          · simp at h
          next hne =>
            split at h
            · simp at h
            next hcp =>
              split at h
              · simp at h
              split at h
              · simp at h
              rw [Option.some.injEq] at h
              subst h
              obtain ⟨hmem, hpw⟩ := build_placement_h_facts perm b ar (ac - apos) 0 placed hbp
              refine ⟨rfl, hne, ?_, pairwise_col_lt_nodup placed hpw, ?_⟩
              · intro t ht
                have hf := hmem t ht
                refine ⟨hf.1 ▸ har, ?_, hf.2.2.2⟩
                have hcol := hf.2.2.1
                rw [hL] at hcol
                omega
              · exact can_place_subperm _ _ (Decidable.not_not.mp hcp)

/-- Every move emitted by a vertical anchor candidate is well formed. -/
theorem candidate_v_ok (is_valid_word : List Char → Bool) (b : Board)
    (rack : List Char) (ar ac L : Nat) (perm : List Char) (apos : Nat) (m : Move)
    (hL : perm.length = L) (hac : ac < BOARD_SIZE)
    (h : candidate_v is_valid_word b rack ar ac L perm apos = some m) :
    m.is_pass = false ∧ m.tiles_placed ≠ [] ∧
    (∀ t ∈ m.tiles_placed, t.1 < BOARD_SIZE ∧ t.2.1 < BOARD_SIZE ∧ b t.1 t.2.1 = none) ∧
    (m.tiles_placed.map (fun t => (t.1, t.2.1))).Nodup ∧
    (m.tiles_placed.map (fun t => t.2.2)).Subperm rack := by
  unfold candidate_v at h
  split at h
  · simp at h
  next hapos =>
    dsimp only at h
    split at h
    · simp at h
    next hfit =>
      cases hbp : build_placement_v b ac (ar - apos) 0 perm with
      | none => rw [hbp] at h; simp at h
      | some placed =>
        rw [hbp] at h
        split at h
        · simp at h
        next tiles heq =>
          obtain rfl : placed = tiles := Option.some.inj heq
          split at h
          · simp at h
          next hne =>
            split at h
            · simp at h
            next hcp =>
              split at h
              · simp at h
              split at h
              · simp at h
              rw [Option.some.injEq] at h
              subst h
              obtain ⟨hmem, hpw⟩ := build_placement_v_facts perm b ac (ar - apos) 0 placed hbp
              refine ⟨rfl, hne, ?_, pairwise_row_lt_nodup placed hpw, ?_⟩
              · intro t ht
                have hf := hmem t ht
                refine ⟨?_, hf.1 ▸ hac, hf.2.2.2⟩
                have hrow := hf.2.2.1
                rw [hL] at hrow
                omega
              · exact can_place_subperm _ _ (Decidable.not_not.mp hcp)

theorem find_anchors_bounds {b : Board} : ∀ a ∈ find_anchors b,
    a.1 < BOARD_SIZE ∧ a.2 < BOARD_SIZE := by
  intro a ha
  simp only [find_anchors, List.mem_flatMap, List.mem_filterMap, List.mem_range] at ha
  obtain ⟨r, hr, c, hc, hsome⟩ := ha
  split at hsome
  · obtain rfl := Option.some.inj hsome
    exact ⟨hr, hc⟩
  · simp at hsome

/-- Every move emitted at an anchor is well formed. -/
theorem build_words_at_anchor_ok (is_valid_word : List Char → Bool) (b : Board)
    (rack : List Char) (ar ac : Nat) (horiz : Bool) (m : Move)
    (har : ar < BOARD_SIZE) (hac : ac < BOARD_SIZE)
    (hm : m ∈ build_words_at_anchor is_valid_word b rack ar ac horiz) :
    m.is_pass = false ∧ m.tiles_placed ≠ [] ∧
    (∀ t ∈ m.tiles_placed, t.1 < BOARD_SIZE ∧ t.2.1 < BOARD_SIZE ∧ b t.1 t.2.1 = none) ∧
    (m.tiles_placed.map (fun t => (t.1, t.2.1))).Nodup ∧
    (m.tiles_placed.map (fun t => t.2.2)).Subperm rack := by
  simp only [build_words_at_anchor, List.mem_flatMap] at hm
  obtain ⟨L, _, perm, hperm, hm⟩ := hm
  have hLperm := perms_length L rack perm hperm
  by_cases hv : is_valid_word perm = true
  swap
  · rw [if_neg hv] at hm
    simp at hm
  rw [if_pos hv] at hm
  simp only [List.mem_filterMap] at hm
  obtain ⟨apos, _, hcand⟩ := hm
  cases horiz
  · rw [if_neg (by simp)] at hcand
    exact candidate_v_ok is_valid_word b rack ar ac L perm apos m hLperm hac hcand
  · rw [if_pos rfl] at hcand
    exact candidate_h_ok is_valid_word b rack ar ac L perm apos m hLperm har hcand

theorem enum_fst_lt {α : Type} (l : List α) (p : Nat × α) (hp : p ∈ l.enum) :
    p.1 < l.length := by
  have hmf := List.mem_map_of_mem Prod.fst hp
  rw [List.enum_map_fst] at hmf
  exact List.mem_range.mp hmf

/-- The tiles of a horizontal first move: letters are exactly the
permutation, positions are distinct, row 7, columns in the span. -/
theorem first_tiles_h_facts (perm : List Char) (start : Nat) :
    ((perm.enum.map (fun p => (7, start + p.1, p.2))).map (fun t => t.2.2) = perm) ∧
    ((perm.enum.map (fun p => (7, start + p.1, p.2))).map (fun t => (t.1, t.2.1))).Nodup ∧
    (∀ t ∈ perm.enum.map (fun p => ((7 : Nat), start + p.1, p.2)), t.1 = 7 ∧
      start ≤ t.2.1 ∧ t.2.1 < start + perm.length) := by
  refine ⟨?_, ?_, ?_⟩
  · rw [List.map_map]
    exact List.enum_map_snd perm
  · rw [List.map_map]
    have hco : ((fun t : Nat × Nat × Char => (t.1, t.2.1)) ∘
        fun p : Nat × Char => ((7 : Nat), start + p.1, p.2)) =
        (fun i => ((7 : Nat), start + i)) ∘ Prod.fst := rfl
    rw [hco, ← List.map_map, List.enum_map_fst]
    apply List.Nodup.map ?_ (List.nodup_range _)
    intro i j hij
    have h2 : start + i = start + j := congrArg Prod.snd hij
    omega
  · intro t ht
    simp only [List.mem_map] at ht
    obtain ⟨p, hp, rfl⟩ := ht
    have hlt := enum_fst_lt perm p hp
    refine ⟨rfl, ?_, ?_⟩ <;> dsimp only <;> omega

/-- Vertical counterpart of `first_tiles_h_facts`. -/
theorem first_tiles_v_facts (perm : List Char) (start : Nat) :
    ((perm.enum.map (fun p => (start + p.1, 7, p.2))).map (fun t => t.2.2) = perm) ∧
    ((perm.enum.map (fun p => (start + p.1, 7, p.2))).map (fun t => (t.1, t.2.1))).Nodup ∧
    (∀ t ∈ perm.enum.map (fun p => (start + p.1, (7 : Nat), p.2)), t.2.1 = 7 ∧
      start ≤ t.1 ∧ t.1 < start + perm.length) := by
  refine ⟨?_, ?_, ?_⟩
  · rw [List.map_map]
    exact List.enum_map_snd perm
  · rw [List.map_map]
    have hco : ((fun t : Nat × Nat × Char => (t.1, t.2.1)) ∘
        fun p : Nat × Char => (start + p.1, (7 : Nat), p.2)) =
        (fun i => (start + i, (7 : Nat))) ∘ Prod.fst := rfl
    rw [hco, ← List.map_map, List.enum_map_fst]
    apply List.Nodup.map ?_ (List.nodup_range _)
    intro i j hij
    have h2 : start + i = start + j := congrArg Prod.fst hij
    omega
  · intro t ht
    simp only [List.mem_map] at ht
    obtain ⟨p, hp, rfl⟩ := ht
    have hlt := enum_fst_lt perm p hp
    refine ⟨rfl, ?_, ?_⟩ <;> dsimp only <;> omega

/-- Every first move is well formed. -/
theorem generate_first_move_ok (is_valid_word : List Char → Bool) (b : Board)
    (rack : List Char) (m : Move) (hb : board_empty b = true)
    (hm : m ∈ generate_first_move is_valid_word b rack) :
    m.is_pass = false ∧ m.tiles_placed ≠ [] ∧
    (∀ t ∈ m.tiles_placed, t.1 < BOARD_SIZE ∧ t.2.1 < BOARD_SIZE ∧ b t.1 t.2.1 = none) ∧
    (m.tiles_placed.map (fun t => (t.1, t.2.1))).Nodup ∧
    (m.tiles_placed.map (fun t => t.2.2)).Subperm rack := by
  simp only [generate_first_move, List.mem_flatMap] at hm
  obtain ⟨L, hLmem, perm, hperm, hm⟩ := hm
  have hLperm := perms_length L rack perm hperm
  have hsub := perms_subperm L rack perm hperm
  have hL2 : 2 ≤ L := (List.mem_range'_1.mp hLmem).1
  by_cases hv : is_valid_word perm = true
  swap
  · rw [if_neg hv] at hm
    simp at hm
  rw [if_pos hv] at hm
  rcases List.mem_append.mp hm with hm | hm
  · simp only [List.mem_filterMap] at hm
    obtain ⟨start, hstart, heq⟩ := hm
    rw [List.mem_range'_1] at hstart
    have hspan : start + L ≤ 15 := by
      have h1 := hstart.2
      rw [BOARD_SIZE_eq] at h1
      omega
    split at heq
    swap
    · simp at heq
    obtain rfl := Option.some.inj heq
    obtain ⟨hletters, hnodup, hbounds⟩ := first_tiles_h_facts perm start
    refine ⟨rfl, ?_, ?_, hnodup, by dsimp only; rw [hletters]; exact hsub⟩
    · apply List.ne_nil_of_length_pos
      simp only [List.length_map, List.enum_length]
      omega
    · intro t ht
      have hf := hbounds t ht
      rw [hLperm] at hf
      refine ⟨by rw [hf.1, BOARD_SIZE_eq]; omega, by rw [BOARD_SIZE_eq]; omega, ?_⟩
      apply board_empty_none hb
      · rw [hf.1, BOARD_SIZE_eq]
        omega
      · rw [BOARD_SIZE_eq]
        omega
  · simp only [List.mem_filterMap] at hm
    obtain ⟨start, hstart, heq⟩ := hm
    rw [List.mem_range'_1] at hstart
    have hspan : start + L ≤ 15 := by
      have h1 := hstart.2
      rw [BOARD_SIZE_eq] at h1
      omega
    split at heq
    swap
    · simp at heq
    obtain rfl := Option.some.inj heq
    obtain ⟨hletters, hnodup, hbounds⟩ := first_tiles_v_facts perm start
    refine ⟨rfl, ?_, ?_, hnodup, by dsimp only; rw [hletters]; exact hsub⟩
    · apply List.ne_nil_of_length_pos
      simp only [List.length_map, List.enum_length]
      omega
    · intro t ht
      have hf := hbounds t ht
      rw [hLperm] at hf
      refine ⟨by rw [BOARD_SIZE_eq]; omega, by rw [hf.1, BOARD_SIZE_eq]; omega, ?_⟩
      apply board_empty_none hb
      · rw [BOARD_SIZE_eq]
        omega
      · rw [hf.1, BOARD_SIZE_eq]
        omega

/-- Every legal move is either the Pass move or a well-formed placement:
in bounds, on distinct empty cells, with letters jointly available in the
acting player's rack. -/
theorem get_legal_moves_ok (is_valid_word : List Char → Bool) (s : ScrabbleState)
    (p : Nat) (m : Move) (hm : m ∈ get_legal_moves is_valid_word s p) :
    m.is_pass = true ∨ placed_ok s p m := by
  unfold get_legal_moves at hm
  split at hm
  · simp at hm
  rcases List.mem_append.mp hm with hm | hm
  swap
  · left
    rcases List.mem_singleton.mp hm with rfl
    rfl
  right
  unfold placed_ok
  split at hm
  next hbe =>
    have hfm := generate_first_move_ok is_valid_word s.board (rack_of s p) m hbe hm
    exact ⟨hfm.2.2.1, hfm.2.2.2⟩
  next hbe =>
    simp only [generate_connected_moves, List.mem_flatMap] at hm
    obtain ⟨a, ha, hm⟩ := hm
    have hab := find_anchors_bounds a ha
    rcases List.mem_append.mp hm with hm | hm <;>
    · have hok := build_words_at_anchor_ok is_valid_word s.board (rack_of s p)
        a.1 a.2 _ m hab.1 hab.2 hm
      exact ⟨hok.2.2.1, hok.2.2.2⟩

theorem RACK_SIZE_eq : RACK_SIZE = 7 := rfl

theorem board_tile_count_empty : board_tile_count (fun _ _ => none) = 0 := by
  simp [board_tile_count]

/-- Applying any legal move conserves the total tile count. -/
theorem total_tiles_apply_move (is_valid_word : List Char → Bool) (s : ScrabbleState)
    (m : Move) (rnd : Nat → Nat) (pos : Nat)
    (hm : m ∈ get_legal_moves is_valid_word s s.current_player) :
    total_tiles (apply_move s m rnd pos).1 = total_tiles s := by
  by_cases hip : m.is_pass = true
  · simp [apply_move, hip, total_tiles]
  · obtain ⟨hcells, hnodup, hsub⟩ :=
      (get_legal_moves_ok is_valid_word s s.current_player m hm).resolve_left hip
    have hcount := board_tile_count_place_tiles m.tiles_placed s.board hcells hnodup
    have hdraw := draw_tiles_lengths rnd m.tiles_placed.length pos s.tile_pool
    have hrlen := remove_each_length (m.tiles_placed.map (fun t => t.2.2))
      (rack_of s s.current_player) hsub
    have hsublen := hsub.length_le
    rw [List.length_map] at hrlen hsublen
    simp only [apply_move, hip, Bool.false_eq_true, if_false]
    by_cases hp1 : s.current_player = 1
    · rw [rack_of, if_pos hp1] at hrlen hsublen
      simp only [hp1, set_rack, add_score, rack_of, eq_self_iff_true, if_true,
        total_tiles, List.length_append]
      omega
    · rw [rack_of, if_neg hp1] at hrlen hsublen
      simp only [set_rack, add_score, rack_of, if_neg hp1, total_tiles,
        List.length_append]
      omega

/-- C3: tile conservation — for every state reachable from
`create_new_game` by applying legal moves of the current player, the two
rack sizes plus the pool size plus the number of filled board cells equal
the fixed 100-tile total. -/
theorem tile_conservation (is_valid_word : List Char → Bool) (s : ScrabbleState)
    (h : Reachable is_valid_word s) : total_tiles s = 100 := by
  induction h with
  | base shuffled hperm =>
    have hlen : shuffled.length = 100 := by
      rw [hperm.length_eq]
      rfl
    have hp1 := pop_rack_lengths RACK_SIZE shuffled (by rw [hlen, RACK_SIZE_eq]; omega)
    have hp2 := pop_rack_lengths RACK_SIZE (pop_rack RACK_SIZE shuffled).2
      (by rw [hp1.2, hlen, RACK_SIZE_eq]; omega)
    simp only [create_new_game, total_tiles, board_tile_count_empty]
    rw [hp1.1, hp2.1, hp2.2, hp1.2, hlen, RACK_SIZE_eq]
  | step s m rnd pos hr hm ih =>
    rw [total_tiles_apply_move is_valid_word s m rnd pos hm]
    exact ih

/-- Witness for `tile_conservation` at the unshuffled initial deal. -/
theorem tile_conservation_witness : total_tiles (create_new_game standard_pool) = 100 :=
  tile_conservation lexAA _ (Reachable.base standard_pool (List.Perm.refl _))

/-! ### Scan lemmas (towards generator soundness) -/

/-- Scanning left from anywhere inside a filled span reaches the same start. -/
theorem scan_left_add (b : Board) (r c1 : Nat) : ∀ d : Nat,
    (∀ x, c1 ≤ x → x < c1 + d → (b r x).isSome) →
    scan_left b r (c1 + d) = scan_left b r c1
  | 0, _ => rfl
  | d + 1, hf => by
    have h1 : scan_left b r (c1 + d + 1) = scan_left b r (c1 + d) := by
      have hs : (b r (c1 + d)).isSome := hf (c1 + d) (by omega) (by omega)
      simp [scan_left, hs]
    have h2 : c1 + (d + 1) = c1 + d + 1 := by omega
    rw [h2, h1, scan_left_add b r c1 d (fun x hx1 hx2 => hf x hx1 (by omega))]

/-- The defining while-loop equation of `scan_right`. -/
theorem scan_right_eq (b : Board) (r c : Nat) :
    scan_right b r c =
      if c < BOARD_SIZE - 1 ∧ (b r (c + 1)).isSome then scan_right b r (c + 1) else c := by
  unfold scan_right
  rcases Nat.lt_or_ge c (BOARD_SIZE - 1) with hlt | hge
  · obtain ⟨fuel, hfuel⟩ : ∃ fuel, BOARD_SIZE - 1 - c = fuel + 1 :=
      ⟨BOARD_SIZE - 1 - c - 1, by rw [BOARD_SIZE_eq] at *; omega⟩
    rw [hfuel]
    have hfuel2 : BOARD_SIZE - 1 - (c + 1) = fuel := by
      rw [BOARD_SIZE_eq] at *
      omega
    rw [hfuel2]
    simp only [scan_right_aux]
    by_cases hb : (b r (c + 1)).isSome
    · rw [if_pos hb, if_pos ⟨hlt, hb⟩]
    · rw [if_neg hb, if_neg (fun hcon => hb hcon.2)]
  · have hz : BOARD_SIZE - 1 - c = 0 := by omega
    rw [hz]
    simp only [scan_right_aux]
    rw [if_neg (fun hcon => by omega)]

/-- Scanning right from anywhere inside a filled span reaches the same end. -/
theorem scan_right_chain (b : Board) (r : Nat) : ∀ (d c1 : Nat),
    c1 + d ≤ BOARD_SIZE - 1 →
    (∀ x, c1 < x → x ≤ c1 + d → (b r x).isSome) →
    scan_right b r c1 = scan_right b r (c1 + d)
  | 0, c1, _, _ => rfl
  | d + 1, c1, hbound, hf => by
    have h1 : scan_right b r c1 = scan_right b r (c1 + 1) := by
      rw [scan_right_eq b r c1, if_pos ⟨by omega, hf (c1 + 1) (by omega) (by omega)⟩]
    rw [h1]
    have h2 : c1 + (d + 1) = (c1 + 1) + d := by omega
    rw [h2]
    exact scan_right_chain b r d (c1 + 1) (by omega)
      (fun x hx1 hx2 => hf x (by omega) (by omega))

/-- Scanning up from anywhere inside a filled span reaches the same start. -/
theorem scan_up_add (b : Board) (c r1 : Nat) : ∀ d : Nat,
    (∀ x, r1 ≤ x → x < r1 + d → (b x c).isSome) →
    scan_up b c (r1 + d) = scan_up b c r1
  | 0, _ => rfl
  | d + 1, hf => by
    have h1 : scan_up b c (r1 + d + 1) = scan_up b c (r1 + d) := by
      have hs : (b (r1 + d) c).isSome := hf (r1 + d) (by omega) (by omega)
      simp [scan_up, hs]
    have h2 : r1 + (d + 1) = r1 + d + 1 := by omega
    rw [h2, h1, scan_up_add b c r1 d (fun x hx1 hx2 => hf x hx1 (by omega))]

/-- The defining while-loop equation of `scan_down`. -/
theorem scan_down_eq (b : Board) (c r : Nat) :
    scan_down b c r =
      if r < BOARD_SIZE - 1 ∧ (b (r + 1) c).isSome then scan_down b c (r + 1) else r := by
  unfold scan_down
  rcases Nat.lt_or_ge r (BOARD_SIZE - 1) with hlt | hge
  · obtain ⟨fuel, hfuel⟩ : ∃ fuel, BOARD_SIZE - 1 - r = fuel + 1 :=
      ⟨BOARD_SIZE - 1 - r - 1, by rw [BOARD_SIZE_eq] at *; omega⟩
    rw [hfuel]
    have hfuel2 : BOARD_SIZE - 1 - (r + 1) = fuel := by
      rw [BOARD_SIZE_eq] at *
      omega
    rw [hfuel2]
    simp only [scan_down_aux]
    by_cases hb : (b (r + 1) c).isSome
    · rw [if_pos hb, if_pos ⟨hlt, hb⟩]
    · rw [if_neg hb, if_neg (fun hcon => hb hcon.2)]
  · have hz : BOARD_SIZE - 1 - r = 0 := by omega
    rw [hz]
    simp only [scan_down_aux]
    rw [if_neg (fun hcon => by omega)]

/-- Scanning down from anywhere inside a filled span reaches the same end. -/
theorem scan_down_chain (b : Board) (c : Nat) : ∀ (d r1 : Nat),
    r1 + d ≤ BOARD_SIZE - 1 →
    (∀ x, r1 < x → x ≤ r1 + d → (b x c).isSome) →
    scan_down b c r1 = scan_down b c (r1 + d)
  | 0, r1, _, _ => rfl
  | d + 1, r1, hbound, hf => by
    have h1 : scan_down b c r1 = scan_down b c (r1 + 1) := by
      rw [scan_down_eq b c r1, if_pos ⟨by omega, hf (r1 + 1) (by omega) (by omega)⟩]
    rw [h1]
    have h2 : r1 + (d + 1) = (r1 + 1) + d := by omega
    rw [h2]
    exact scan_down_chain b c d (r1 + 1) (by omega)
      (fun x hx1 hx2 => hf x (by omega) (by omega))

/-- Two cells inside one horizontally filled span carry the same maximal
horizontal run. -/
theorem get_word_at_eq_h (b : Board) (row sc L : Nat) (hspan : sc + L ≤ BOARD_SIZE)
    (hfill : ∀ j, j < L → (b row (sc + j)).isSome) :
    ∀ c c', sc ≤ c → c < sc + L → sc ≤ c' → c' < sc + L →
    get_word_at b row c true = get_word_at b row c' true := by
  have hL : ∀ c, sc ≤ c → c < sc + L →
      scan_left b row c = scan_left b row sc ∧
      scan_right b row c = scan_right b row (sc + L - 1) := by
    intro c hc1 hc2
    constructor
    · obtain ⟨d, rfl⟩ : ∃ d, c = sc + d := ⟨c - sc, by omega⟩
      refine scan_left_add b row sc d (fun x hx1 hx2 => ?_)
      have hx := hfill (x - sc) (by omega)
      rwa [show sc + (x - sc) = x by omega] at hx
    · obtain ⟨d, hd⟩ : ∃ d, sc + L - 1 = c + d := ⟨sc + L - 1 - c, by omega⟩
      rw [hd]
      refine scan_right_chain b row d c (by rw [BOARD_SIZE_eq] at *; omega)
        (fun x hx1 hx2 => ?_)
      have hx := hfill (x - sc) (by omega)
      rwa [show sc + (x - sc) = x by omega] at hx
  intro c c' hc1 hc2 hc1' hc2'
  have h1 := hL c hc1 hc2
  have h2 := hL c' hc1' hc2'
  simp only [get_word_at, if_true, ite_true]
  rw [h1.1, h1.2, h2.1, h2.2]

/-- Two cells inside one vertically filled span carry the same maximal
vertical run. -/
theorem get_word_at_eq_v (b : Board) (col sr L : Nat) (hspan : sr + L ≤ BOARD_SIZE)
    (hfill : ∀ j, j < L → (b (sr + j) col).isSome) :
    ∀ r r', sr ≤ r → r < sr + L → sr ≤ r' → r' < sr + L →
    get_word_at b r col false = get_word_at b r' col false := by
  have hL : ∀ r, sr ≤ r → r < sr + L →
      scan_up b col r = scan_up b col sr ∧
      scan_down b col r = scan_down b col (sr + L - 1) := by
    intro r hr1 hr2
    constructor
    · obtain ⟨d, rfl⟩ : ∃ d, r = sr + d := ⟨r - sr, by omega⟩
      refine scan_up_add b col sr d (fun x hx1 hx2 => ?_)
      have hx := hfill (x - sr) (by omega)
      rwa [show sr + (x - sr) = x by omega] at hx
    · obtain ⟨d, hd⟩ : ∃ d, sr + L - 1 = r + d := ⟨sr + L - 1 - r, by omega⟩
      rw [hd]
      refine scan_down_chain b col d r (by rw [BOARD_SIZE_eq] at *; omega)
        (fun x hx1 hx2 => ?_)
      have hx := hfill (x - sr) (by omega)
      rwa [show sr + (x - sr) = x by omega] at hx
  intro r r' hr1 hr2 hr1' hr2'
  have h1 := hL r hr1 hr2
  have h2 := hL r' hr1' hr2'
  simp only [get_word_at, Bool.false_eq_true, if_false, ite_false]
  rw [h1.1, h1.2, h2.1, h2.2]

/-- A vertically isolated cell carries a vertical run of length at most one. -/
theorem get_word_at_single_v (b : Board) (r c : Nat)
    (hup : r = 0 ∨ b (r - 1) c = none)
    (hdown : BOARD_SIZE - 1 ≤ r ∨ b (r + 1) c = none) :
    (get_word_at b r c false).length ≤ 1 := by
  have hu : scan_up b c r = r := by
    rcases r with _ | rr
    · rfl
    · rcases hup with h0 | hup
      · exact absurd h0 (by omega)
      · rw [Nat.add_sub_cancel] at hup
        simp [scan_up, hup]
  have hd : scan_down b c r = r := by
    rw [scan_down_eq]
    rcases hdown with hdown | hdown
    · rw [if_neg (fun hcon => absurd hcon.1 (by omega))]
    · rw [if_neg (fun hcon => by rw [hdown] at hcon; simp at hcon)]
  calc (get_word_at b r c false).length
      ≤ (List.range (scan_down b c r + 1 - scan_up b c r)).length :=
        by simp only [get_word_at, Bool.false_eq_true, if_false]; exact List.length_filterMap_le _ _
    _ ≤ 1 := by rw [hu, hd]; simp

/-- A horizontally isolated cell carries a horizontal run of length at most one. -/
theorem get_word_at_single_h (b : Board) (r c : Nat)
    (hleft : c = 0 ∨ b r (c - 1) = none)
    (hright : BOARD_SIZE - 1 ≤ c ∨ b r (c + 1) = none) :
    (get_word_at b r c true).length ≤ 1 := by
  have hu : scan_left b r c = c := by
    rcases c with _ | cc
    · rfl
    · rcases hleft with h0 | hleft
      · exact absurd h0 (by omega)
      · rw [Nat.add_sub_cancel] at hleft
        simp [scan_left, hleft]
  have hd : scan_right b r c = c := by
    rw [scan_right_eq]
    rcases hright with hright | hright
    · rw [if_neg (fun hcon => absurd hcon.1 (by omega))]
    · rw [if_neg (fun hcon => by rw [hright] at hcon; simp at hcon)]
  calc (get_word_at b r c true).length
      ≤ (List.range (scan_right b r c + 1 - scan_left b r c)).length :=
        by simp only [get_word_at, if_pos rfl]; exact List.length_filterMap_le _ _
    _ ≤ 1 := by rw [hu, hd]; simp

/-- Extracting a fully specified span as a word. -/
theorem filterMap_range_eq : ∀ (w : List Char) (f : Nat → Option Char),
    (∀ j, j < w.length → f j = some (w.getD j 'A')) →
    (List.range w.length).filterMap f = w
  | [], _, _ => rfl
  | a :: w', f, h => by
    rw [List.length_cons, List.range_succ_eq_map, List.filterMap_cons, List.filterMap_map]
    have h0 : f 0 = some a := h 0 (by simp)
    rw [h0]
    show a :: List.filterMap (f ∘ Nat.succ) (List.range w'.length) = a :: w'
    congr 1
    exact filterMap_range_eq w' (f ∘ Nat.succ)
      (fun j hj => by
        have hh := h (j + 1) (by simp only [List.length_cons]; omega)
        rw [List.getD_cons_succ] at hh
        exact hh)

/-- After a successful horizontal placement walk, every cell of the walked
span is either already filled or receives a new tile. -/
theorem build_placement_h_covers : ∀ (ls : List Char) (b : Board) (row sc i : Nat)
    (placed : List (Nat × Nat × Char)), build_placement_h b row sc i ls = some placed →
    ∀ j, j < ls.length → b row (sc + i + j) ≠ none ∨ ∃ l, (row, sc + i + j, l) ∈ placed
  | [], _, _, _, _, _, _ => by
    intro j hj
    simp at hj
  | l :: ls, b, row, sc, i, placed, h => by
    simp only [build_placement_h] at h
    split at h
    next hcell =>
      simp only [Option.map_eq_some'] at h
      obtain ⟨rest, hrest, rfl⟩ := h
      intro j hj
      rcases j with _ | j'
      · exact Or.inr ⟨l, by simp⟩
      · have hc := build_placement_h_covers ls b row sc (i + 1) rest hrest j'
          (by simp only [List.length_cons] at hj; omega)
        rw [show sc + i + (j' + 1) = sc + (i + 1) + j' from by omega]
        rcases hc with hc | ⟨l', hc⟩
        · exact Or.inl hc
        · exact Or.inr ⟨l', List.mem_cons_of_mem _ hc⟩
    next c hcell =>
      split at h
      next hcl =>
        subst hcl
        intro j hj
        rcases j with _ | j'
        · left
          rw [Nat.add_zero, hcell]
          simp
        · have hc := build_placement_h_covers ls b row sc (i + 1) placed h j'
            (by simp only [List.length_cons] at hj; omega)
          rw [show sc + i + (j' + 1) = sc + (i + 1) + j' from by omega]
          exact hc
      next hcl => simp at h

/-- Vertical counterpart of `build_placement_h_covers`. -/
theorem build_placement_v_covers : ∀ (ls : List Char) (b : Board) (col sr i : Nat)
    (placed : List (Nat × Nat × Char)), build_placement_v b col sr i ls = some placed →
    ∀ j, j < ls.length → b (sr + i + j) col ≠ none ∨ ∃ l, (sr + i + j, col, l) ∈ placed
  | [], _, _, _, _, _, _ => by
    intro j hj
    simp at hj
  | l :: ls, b, col, sr, i, placed, h => by
    simp only [build_placement_v] at h
    split at h
    next hcell =>
      simp only [Option.map_eq_some'] at h
      obtain ⟨rest, hrest, rfl⟩ := h
      intro j hj
      rcases j with _ | j'
      · exact Or.inr ⟨l, by simp⟩
      · have hc := build_placement_v_covers ls b col sr (i + 1) rest hrest j'
          (by simp only [List.length_cons] at hj; omega)
        rw [show sr + i + (j' + 1) = sr + (i + 1) + j' from by omega]
        rcases hc with hc | ⟨l', hc⟩
        · exact Or.inl hc
        · exact Or.inr ⟨l', List.mem_cons_of_mem _ hc⟩
    next c hcell =>
      split at h
      next hcl =>
        subst hcl
        intro j hj
        rcases j with _ | j'
        · left
          rw [Nat.add_zero, hcell]
          simp
        · have hc := build_placement_v_covers ls b col sr (i + 1) placed h j'
            (by simp only [List.length_cons] at hj; omega)
          rw [show sr + i + (j' + 1) = sr + (i + 1) + j' from by omega]
          exact hc
      next hcl => simp at h

/-- Every move emitted by a horizontal anchor candidate leaves, on the board
with its tiles placed, a Lexicon-valid maximal horizontal run through each
placed tile and a valid-or-trivial vertical run through each placed tile. -/
theorem candidate_h_sound (is_valid_word : List Char → Bool) (b : Board)
    (rack : List Char) (ar ac L : Nat) (perm : List Char) (apos : Nat) (m : Move)
    (hL : perm.length = L) (haposL : apos < L)
    (h : candidate_h is_valid_word b rack ar ac L perm apos = some m) :
    ∀ t ∈ m.tiles_placed,
      is_valid_word (get_word_at (place_tiles b m.tiles_placed) t.1 t.2.1 true) = true ∧
      ((get_word_at (place_tiles b m.tiles_placed) t.1 t.2.1 false).length ≤ 1 ∨
        is_valid_word (get_word_at (place_tiles b m.tiles_placed) t.1 t.2.1 false) = true) := by
  unfold candidate_h at h
  split at h
  · simp at h
  next hapos =>
    dsimp only at h
    split at h
    · simp at h
    next hfit =>
      cases hbp : build_placement_h b ar (ac - apos) 0 perm with
      | none => rw [hbp] at h; simp at h
      | some placed =>
        rw [hbp] at h
        split at h
        · simp at h
        next tiles heq =>
          obtain rfl : placed = tiles := Option.some.inj heq
          split at h
          · simp at h
          next hne =>
            split at h
            · simp at h
            next hcp =>
              split at h
              · simp at h
              next hvw =>
                split at h
                · simp at h
                next hvp =>
                  rw [Option.some.injEq] at h
                  subst h
                  obtain ⟨hmem, hpw⟩ := build_placement_h_facts perm b ar (ac - apos) 0 placed hbp
                  have hcov := build_placement_h_covers perm b ar (ac - apos) 0 placed hbp
                  have hfill : ∀ j, j < L → ((place_tiles b placed) ar (ac - apos + j)).isSome := by
                    intro j hj
                    rw [Option.isSome_iff_ne_none]
                    rcases hcov j (by omega) with hc | ⟨l, hc⟩
                    · rw [Nat.add_zero] at hc
                      exact place_tiles_ne_none_of_base placed b ar _ hc
                    · rw [Nat.add_zero] at hc
                      exact place_tiles_ne_none_of_mem placed b (ar, ac - apos + j, l) hc
                  have hspan : (ac - apos) + L ≤ BOARD_SIZE := by omega
                  have hmain := Decidable.not_not.mp hvw
                  have hval := Decidable.not_not.mp hvp
                  unfold validate_placement at hval
                  rw [List.all_eq_true] at hval
                  intro t ht
                  have hf := hmem t ht
                  rw [Nat.add_zero] at hf
                  constructor
                  · have heqw : get_word_at (place_tiles b placed) t.1 t.2.1 true =
                        get_word_at (place_tiles b placed) ar ac true := by
                      rw [hf.1]
                      exact get_word_at_eq_h (place_tiles b placed) ar (ac - apos) L hspan hfill
                        t.2.1 ac hf.2.1 (by have := hf.2.2.1; omega) (by omega) (by omega)
                    rw [heqw]
                    exact hmain
                  · have hvt := hval t ht
                    simp only [Bool.not_true] at hvt
                    rw [Bool.or_eq_true, decide_eq_true_iff] at hvt
                    exact hvt

/-- Vertical counterpart of `candidate_h_sound`. -/
theorem candidate_v_sound (is_valid_word : List Char → Bool) (b : Board)
    (rack : List Char) (ar ac L : Nat) (perm : List Char) (apos : Nat) (m : Move)
    (hL : perm.length = L) (haposL : apos < L)
    (h : candidate_v is_valid_word b rack ar ac L perm apos = some m) :
    ∀ t ∈ m.tiles_placed,
      is_valid_word (get_word_at (place_tiles b m.tiles_placed) t.1 t.2.1 false) = true ∧
      ((get_word_at (place_tiles b m.tiles_placed) t.1 t.2.1 true).length ≤ 1 ∨
        is_valid_word (get_word_at (place_tiles b m.tiles_placed) t.1 t.2.1 true) = true) := by
  unfold candidate_v at h
  split at h
  · simp at h
  next hapos =>
    dsimp only at h
    split at h
    · simp at h
    next hfit =>
      cases hbp : build_placement_v b ac (ar - apos) 0 perm with
      | none => rw [hbp] at h; simp at h
      | some placed =>
        rw [hbp] at h
        split at h
        · simp at h
        next tiles heq =>
          obtain rfl : placed = tiles := Option.some.inj heq
          split at h
          · simp at h
          next hne =>
            split at h
            · simp at h
            next hcp =>
              split at h
              · simp at h
              next hvw =>
                split at h
                · simp at h
                next hvp =>
                  rw [Option.some.injEq] at h
                  subst h
                  obtain ⟨hmem, hpw⟩ := build_placement_v_facts perm b ac (ar - apos) 0 placed hbp
                  have hcov := build_placement_v_covers perm b ac (ar - apos) 0 placed hbp
                  have hfill : ∀ j, j < L → ((place_tiles b placed) (ar - apos + j) ac).isSome := by
                    intro j hj
                    rw [Option.isSome_iff_ne_none]
                    rcases hcov j (by omega) with hc | ⟨l, hc⟩
                    · rw [Nat.add_zero] at hc
                      exact place_tiles_ne_none_of_base placed b _ ac hc
                    · rw [Nat.add_zero] at hc
                      exact place_tiles_ne_none_of_mem placed b (ar - apos + j, ac, l) hc
                  have hspan : (ar - apos) + L ≤ BOARD_SIZE := by omega
                  have hmain := Decidable.not_not.mp hvw
                  have hval := Decidable.not_not.mp hvp
                  unfold validate_placement at hval
                  rw [List.all_eq_true] at hval
                  intro t ht
                  have hf := hmem t ht
                  rw [Nat.add_zero] at hf
                  constructor
                  · have heqw : get_word_at (place_tiles b placed) t.1 t.2.1 false =
                        get_word_at (place_tiles b placed) ar ac false := by
                      rw [hf.1]
                      exact get_word_at_eq_v (place_tiles b placed) ac (ar - apos) L hspan hfill
                        t.1 ar hf.2.1 (by have := hf.2.2.1; omega) (by omega) (by omega)
                    rw [heqw]
                    exact hmain
                  · have hvt := hval t ht
                    simp only [Bool.not_false] at hvt
                    rw [Bool.or_eq_true, decide_eq_true_iff] at hvt
                    exact hvt

/-- On the empty board, every generated first move leaves exactly one
maximal run of length > 1 — the placed word itself, which is valid — and
trivial perpendicular runs. -/
theorem first_move_sound (is_valid_word : List Char → Bool) (b : Board)
    (rack : List Char) (m : Move) (hb : board_empty b = true)
    (hm : m ∈ generate_first_move is_valid_word b rack) :
    ∀ t ∈ m.tiles_placed,
      ((get_word_at (place_tiles b m.tiles_placed) t.1 t.2.1 true).length ≤ 1 ∨
        is_valid_word (get_word_at (place_tiles b m.tiles_placed) t.1 t.2.1 true) = true) ∧
      ((get_word_at (place_tiles b m.tiles_placed) t.1 t.2.1 false).length ≤ 1 ∨
        is_valid_word (get_word_at (place_tiles b m.tiles_placed) t.1 t.2.1 false) = true) := by
  simp only [generate_first_move, List.mem_flatMap] at hm
  obtain ⟨L, hLmem, perm, hperm, hm⟩ := hm
  have hLperm := perms_length L rack perm hperm
  have hL2 : 2 ≤ L := (List.mem_range'_1.mp hLmem).1
  by_cases hv : is_valid_word perm = true
  swap
  · rw [if_neg hv] at hm
    simp at hm
  rw [if_pos hv] at hm
  rcases List.mem_append.mp hm with hm | hm
  · -- horizontal first move
    simp only [List.mem_filterMap] at hm
    obtain ⟨start, hstart, heq⟩ := hm
    rw [List.mem_range'_1] at hstart
    have hspan : start + L ≤ 15 := by
      have h1 := hstart.2
      rw [BOARD_SIZE_eq] at h1
      omega
    split at heq
    swap
    · simp at heq
    obtain rfl := Option.some.inj heq
    obtain ⟨hletters, hnodup, hbounds⟩ := first_tiles_h_facts perm start
    dsimp only
    have hout : ∀ r c, r < 15 → c < 15 → (r ≠ 7 ∨ c < start ∨ start + perm.length ≤ c) →
        place_tiles b (perm.enum.map (fun p => ((7 : Nat), start + p.1, p.2))) r c = none := by
      intro r c hr hc hcase
      rw [place_tiles_not_mem]
      · exact board_empty_none hb r c (by rw [BOARD_SIZE_eq]; omega) (by rw [BOARD_SIZE_eq]; omega)
      · intro u hu hcon
        have hfu := hbounds u hu
        rcases hcase with h7 | hlt | hge
        · apply h7
          rw [← hcon.1, hfu.1]
        · have h1 := hfu.2.1
          have h2 := hcon.2
          omega
        · have h1 := hfu.2.2
          have h2 := hcon.2
          omega
    have hval : ∀ j, j < perm.length →
        place_tiles b (perm.enum.map (fun p => ((7 : Nat), start + p.1, p.2))) 7 (start + j) =
          some (perm.getD j 'A') := by
      intro j hj
      apply place_tiles_mem_eq _ _ _ _ _ hnodup
      have hjE : j < perm.enum.length := by
        rw [List.enum_length]
        exact hj
      have hmemE : (j, perm.getD j 'A') ∈ perm.enum := by
        rw [List.getD_eq_getElem perm 'A' hj]
        exact (List.getElem_enum perm j hjE) ▸ List.getElem_mem hjE
      exact List.mem_map_of_mem _ hmemE
    have hword : ∀ c, start ≤ c → c < start + perm.length →
        get_word_at (place_tiles b (perm.enum.map (fun p => ((7 : Nat), start + p.1, p.2))))
          7 c true = perm := by
      intro c hc1 hc2
      have hsl : scan_left
          (place_tiles b (perm.enum.map (fun p => ((7 : Nat), start + p.1, p.2)))) 7 c = start := by
        obtain ⟨d, rfl⟩ : ∃ d, c = start + d := ⟨c - start, by omega⟩
        rw [scan_left_add _ 7 start d (fun x hx1 hx2 => by
          have hx := hval (x - start) (by omega)
          rw [show start + (x - start) = x by omega] at hx
          simp [hx])]
        rcases Nat.eq_zero_or_pos start with rfl | hpos
        · rfl
        · obtain ⟨ss, rfl⟩ : ∃ ss, start = ss + 1 := ⟨start - 1, by omega⟩
          have hnone := hout 7 ss (by omega) (by omega) (Or.inr (Or.inl (by omega)))
          simp [scan_left, hnone]
      have hsr : scan_right
          (place_tiles b (perm.enum.map (fun p => ((7 : Nat), start + p.1, p.2)))) 7 c =
            start + perm.length - 1 := by
        obtain ⟨d, hd⟩ : ∃ d, start + perm.length - 1 = c + d :=
          ⟨start + perm.length - 1 - c, by omega⟩
        have hchain := scan_right_chain
          (place_tiles b (perm.enum.map (fun p => ((7 : Nat), start + p.1, p.2)))) 7 d c
          (by rw [BOARD_SIZE_eq]; omega)
          (fun x hx1 hx2 => by
            have hx := hval (x - start) (by omega)
            rw [show start + (x - start) = x by omega] at hx
            simp [hx])
        rw [hchain, ← hd, scan_right_eq]
        by_cases hend : start + perm.length = 15
        · rw [if_neg (fun hcon => by
            have h1 := hcon.1
            rw [BOARD_SIZE_eq] at h1
            omega)]
        · have hnone := hout 7 (start + perm.length) (by omega) (by omega)
            (Or.inr (Or.inr (le_refl _)))
          rw [if_neg (fun hcon => by
            have h2 := hcon.2
            rw [show start + perm.length - 1 + 1 = start + perm.length from by omega,
              hnone] at h2
            simp at h2)]
      simp only [get_word_at, if_true, ite_true]
      rw [hsl, hsr, show start + perm.length - 1 + 1 - start = perm.length from by omega]
      exact filterMap_range_eq perm _ hval
    intro t ht
    have hft := hbounds t ht
    have hc15 : t.2.1 < 15 := by
      have h1 := hft.2.2
      omega
    constructor
    · right
      rw [hft.1, hword t.2.1 hft.2.1 hft.2.2]
      exact hv
    · left
      rw [hft.1]
      apply get_word_at_single_v
      · exact Or.inr (hout 6 t.2.1 (by omega) hc15 (Or.inl (by omega)))
      · exact Or.inr (hout 8 t.2.1 (by omega) hc15 (Or.inl (by omega)))
  · -- vertical first move
    simp only [List.mem_filterMap] at hm
    obtain ⟨start, hstart, heq⟩ := hm
    rw [List.mem_range'_1] at hstart
    have hspan : start + L ≤ 15 := by
      have h1 := hstart.2
      rw [BOARD_SIZE_eq] at h1
      omega
    split at heq
    swap
    · simp at heq
    obtain rfl := Option.some.inj heq
    obtain ⟨hletters, hnodup, hbounds⟩ := first_tiles_v_facts perm start
    dsimp only
    have hout : ∀ r c, r < 15 → c < 15 → (c ≠ 7 ∨ r < start ∨ start + perm.length ≤ r) →
        place_tiles b (perm.enum.map (fun p => (start + p.1, (7 : Nat), p.2))) r c = none := by
      intro r c hr hc hcase
      rw [place_tiles_not_mem]
      · exact board_empty_none hb r c (by rw [BOARD_SIZE_eq]; omega) (by rw [BOARD_SIZE_eq]; omega)
      · intro u hu hcon
        have hfu := hbounds u hu
        rcases hcase with h7 | hlt | hge
        · apply h7
          rw [← hcon.2, hfu.1]
        · have h1 := hfu.2.1
          have h2 := hcon.1
          omega
        · have h1 := hfu.2.2
          have h2 := hcon.1
          omega
    have hval : ∀ j, j < perm.length →
        place_tiles b (perm.enum.map (fun p => (start + p.1, (7 : Nat), p.2))) (start + j) 7 =
          some (perm.getD j 'A') := by
      intro j hj
      apply place_tiles_mem_eq _ _ _ _ _ hnodup
      have hjE : j < perm.enum.length := by
        rw [List.enum_length]
        exact hj
      have hmemE : (j, perm.getD j 'A') ∈ perm.enum := by
        rw [List.getD_eq_getElem perm 'A' hj]
        exact (List.getElem_enum perm j hjE) ▸ List.getElem_mem hjE
      exact List.mem_map_of_mem _ hmemE
    have hword : ∀ r, start ≤ r → r < start + perm.length →
        get_word_at (place_tiles b (perm.enum.map (fun p => (start + p.1, (7 : Nat), p.2))))
          r 7 false = perm := by
      intro r hr1 hr2
      have hsl : scan_up
          (place_tiles b (perm.enum.map (fun p => (start + p.1, (7 : Nat), p.2)))) 7 r = start := by
        obtain ⟨d, rfl⟩ : ∃ d, r = start + d := ⟨r - start, by omega⟩
        rw [scan_up_add _ 7 start d (fun x hx1 hx2 => by
          have hx := hval (x - start) (by omega)
          rw [show start + (x - start) = x by omega] at hx
          simp [hx])]
        rcases Nat.eq_zero_or_pos start with rfl | hpos
        · rfl
        · obtain ⟨ss, rfl⟩ : ∃ ss, start = ss + 1 := ⟨start - 1, by omega⟩
          have hnone := hout ss 7 (by omega) (by omega) (Or.inr (Or.inl (by omega)))
          simp [scan_up, hnone]
      have hsr : scan_down
          (place_tiles b (perm.enum.map (fun p => (start + p.1, (7 : Nat), p.2)))) 7 r =
            start + perm.length - 1 := by
        obtain ⟨d, hd⟩ : ∃ d, start + perm.length - 1 = r + d :=
          ⟨start + perm.length - 1 - r, by omega⟩
        have hchain := scan_down_chain
          (place_tiles b (perm.enum.map (fun p => (start + p.1, (7 : Nat), p.2)))) 7 d r
          (by rw [BOARD_SIZE_eq]; omega)
          (fun x hx1 hx2 => by
            have hx := hval (x - start) (by omega)
            rw [show start + (x - start) = x by omega] at hx
            simp [hx])
        rw [hchain, ← hd, scan_down_eq]
        by_cases hend : start + perm.length = 15
        · rw [if_neg (fun hcon => by
            have h1 := hcon.1
            rw [BOARD_SIZE_eq] at h1
            omega)]
        · have hnone := hout (start + perm.length) 7 (by omega) (by omega)
            (Or.inr (Or.inr (le_refl _)))
          rw [if_neg (fun hcon => by
            have h2 := hcon.2
            rw [show start + perm.length - 1 + 1 = start + perm.length from by omega,
              hnone] at h2
            simp at h2)]
      simp only [get_word_at, Bool.false_eq_true, if_false, ite_false]
      rw [hsl, hsr, show start + perm.length - 1 + 1 - start = perm.length from by omega]
      exact filterMap_range_eq perm _ hval
    intro t ht
    have hft := hbounds t ht
    have hr15 : t.1 < 15 := by
      have h1 := hft.2.2
      omega
    constructor
    · left
      rw [hft.1]
      apply get_word_at_single_h
      · exact Or.inr (hout t.1 6 hr15 (by omega) (Or.inl (by omega)))
      · exact Or.inr (hout t.1 8 hr15 (by omega) (Or.inl (by omega)))
    · right
      rw [hft.1, hword t.1 hft.2.1 hft.2.2]
      exact hv

/-- The board produced by applying a non-pass move. -/
theorem apply_move_board (s : ScrabbleState) (m : Move) (rnd : Nat → Nat) (pos : Nat)
    (hp : m.is_pass = false) :
    (apply_move s m rnd pos).1.board = place_tiles s.board m.tiles_placed := by
  by_cases h1 : s.current_player = 1 <;>
    simp [apply_move, hp, set_rack, add_score, h1]

/-- C4: generator soundness — for every state and every Place move returned
by `get_legal_moves`, applying the move yields a board on which, for each
newly placed tile, the maximal horizontal run and the maximal vertical run
through that tile (as computed by `get_word_at`) each either have length at
most 1 or are Lexicon-valid.  Every maximal run of length > 1 that contains
a newly placed tile is the run through that tile in one of the two
orientations, so this is exactly: every such run is Lexicon-valid. -/
theorem generator_soundness (is_valid_word : List Char → Bool) (s : ScrabbleState)
    (p : Nat) (m : Move) (rnd : Nat → Nat) (pos : Nat)
    (hm : m ∈ get_legal_moves is_valid_word s p) (hp : m.is_pass = false) :
    ∀ t ∈ m.tiles_placed,
      ((get_word_at (apply_move s m rnd pos).1.board t.1 t.2.1 true).length ≤ 1 ∨
        is_valid_word (get_word_at (apply_move s m rnd pos).1.board t.1 t.2.1 true) = true) ∧
      ((get_word_at (apply_move s m rnd pos).1.board t.1 t.2.1 false).length ≤ 1 ∨
        is_valid_word (get_word_at (apply_move s m rnd pos).1.board t.1 t.2.1 false) = true) := by
  rw [apply_move_board s m rnd pos hp]
  unfold get_legal_moves at hm
  split at hm
  · simp at hm
  rcases List.mem_append.mp hm with hm | hm
  swap
  · rcases List.mem_singleton.mp hm with rfl
    simp [pass_move] at hp
  split at hm
  next hbe =>
    exact first_move_sound is_valid_word s.board (rack_of s p) m hbe hm
  next hbe =>
    simp only [generate_connected_moves, List.mem_flatMap] at hm
    obtain ⟨a, ha, hm⟩ := hm
    rcases List.mem_append.mp hm with hm | hm
    · simp only [build_words_at_anchor, List.mem_flatMap] at hm
      obtain ⟨L, _, perm, hperm, hm⟩ := hm
      have hLperm := perms_length L (rack_of s p) perm hperm
      by_cases hv : is_valid_word perm = true
      swap
      · rw [if_neg hv] at hm
        simp at hm
      rw [if_pos hv] at hm
      simp only [List.mem_filterMap, List.mem_range] at hm
      obtain ⟨apos, haposL, hcand⟩ := hm
      have hcand2 : candidate_h is_valid_word s.board (rack_of s p) a.1 a.2 L perm apos
          = some m := by simpa using hcand
      intro t ht
      have hs := candidate_h_sound is_valid_word s.board (rack_of s p)
        a.1 a.2 L perm apos m hLperm haposL hcand2 t ht
      exact ⟨Or.inr hs.1, hs.2⟩
    · simp only [build_words_at_anchor, List.mem_flatMap] at hm
      obtain ⟨L, _, perm, hperm, hm⟩ := hm
      have hLperm := perms_length L (rack_of s p) perm hperm
      by_cases hv : is_valid_word perm = true
      swap
      · rw [if_neg hv] at hm
        simp at hm
      rw [if_pos hv] at hm
      simp only [List.mem_filterMap, List.mem_range] at hm
      obtain ⟨apos, haposL, hcand⟩ := hm
      have hcand2 : candidate_v is_valid_word s.board (rack_of s p) a.1 a.2 L perm apos
          = some m := by simpa using hcand
      intro t ht
      have hs := candidate_v_sound is_valid_word s.board (rack_of s p)
        a.1 a.2 L perm apos m hLperm haposL hcand2 t ht
      exact ⟨hs.2, Or.inr hs.1⟩

/-- Witness for `generator_soundness` at the center tile of the concrete
CATS first move. -/
theorem generator_soundness_witness :
    ((get_word_at (apply_move cats_state cats_move (fun _ => 0) 0).1.board
        7 7 true).length ≤ 1 ∨
      lexCATS (get_word_at (apply_move cats_state cats_move (fun _ => 0) 0).1.board
        7 7 true) = true) ∧
    ((get_word_at (apply_move cats_state cats_move (fun _ => 0) 0).1.board
        7 7 false).length ≤ 1 ∨
      lexCATS (get_word_at (apply_move cats_state cats_move (fun _ => 0) 0).1.board
        7 7 false) = true) :=
  generator_soundness lexCATS cats_state 1 cats_move (fun _ => 0) 0 cats_move_mem rfl
    (7, 7, 'S') (by decide)

/-! ### Alpha-beta equivalence -/

theorem get_legal_moves_ne_nil (is_valid_word : List Char → Bool) (s : ScrabbleState)
    (p : Nat) (h : is_terminal s = false) : get_legal_moves is_valid_word s p ≠ [] := by
  unfold get_legal_moves
  rw [if_neg (by rw [h]; simp)]
  exact List.append_ne_nil_of_right_ne_nil _ (by simp)

theorem utilV_lt_top (s : ScrabbleState) (p : Nat) : utilV s p < ⊤ := by
  unfold utilV
  rw [show (⊤ : EV) = ((⊤ : WithTop Int) : EV) from rfl, WithBot.coe_lt_coe]
  exact WithTop.coe_lt_top (get_utility s p)

theorem le_foldl_max (tval : Move → EV) : ∀ (ms : List Move) (v : EV),
    v ≤ ms.foldl (fun w m => max w (tval m)) v
  | [], _ => le_refl _
  | m :: ms, v => le_trans (le_max_left v (tval m)) (le_foldl_max tval ms _)

theorem foldl_min_le (tval : Move → EV) : ∀ (ms : List Move) (v : EV),
    ms.foldl (fun w m => min w (tval m)) v ≤ v
  | [], _ => le_refl _
  | m :: ms, v => le_trans (foldl_min_le tval ms _) (min_le_left v (tval m))

theorem ab_max_loop_lt_top (eval : Move → EV → EV) (β : EV)
    (hev : ∀ m a, eval m a < ⊤) : ∀ (ms : List Move) (v a : EV), v < ⊤ →
    ab_max_loop eval β ms v a < ⊤
  | [], _, _, hv => hv
  | m :: ms, v, a, hv => by
    simp only [ab_max_loop]
    split
    · exact max_lt hv (hev m a)
    · exact ab_max_loop_lt_top eval β hev ms _ _ (max_lt hv (hev m a))

theorem ab_min_loop_lt_top (eval : Move → EV → EV) (α : EV)
    (hev : ∀ m b, eval m b < ⊤) : ∀ (ms : List Move) (v b : EV), v < ⊤ ∨ ms ≠ [] →
    ab_min_loop eval α ms v b < ⊤
  | [], v, _, hv => hv.resolve_right (fun hc => hc rfl)
  | m :: ms, v, b, _ => by
    simp only [ab_min_loop]
    split
    · exact lt_of_le_of_lt (min_le_right v (eval m b)) (hev m b)
    · exact ab_min_loop_lt_top eval α hev ms _ _
        (Or.inl (lt_of_le_of_lt (min_le_right v (eval m b)) (hev m b)))

/-- `_minimax_value` never returns `float('inf')`. -/
theorem minimax_value_lt_top (app : ScrabbleState → Move → ScrabbleState)
    (is_valid_word : List Char → Bool) (mx : Nat) : ∀ (d : Nat) (s : ScrabbleState)
    (α β : EV), minimax_value app is_valid_word mx d s α β < ⊤
  | 0, s, _, _ => utilV_lt_top s mx
  | d + 1, s, α, β => by
    simp only [minimax_value]
    split
    · exact utilV_lt_top s mx
    next hterm =>
      split
      · exact ab_max_loop_lt_top _ β
          (fun m a => minimax_value_lt_top app is_valid_word mx d (app s m) a β) _ ⊥ α
          bot_lt_top
      · exact ab_min_loop_lt_top _ α
          (fun m b => minimax_value_lt_top app is_valid_word mx d (app s m) α b) _ ⊤ β
          (Or.inr (get_legal_moves_ne_nil is_valid_word s s.current_player
            (Bool.not_eq_true _ ▸ hterm)))

/-- Knuth–Moore style invariant for the Max loop: within the `(α₀, β)`
window clamp, the pruned loop agrees with the exact fold. -/
theorem ab_max_loop_clamp (eval : Move → EV → EV) (tval : Move → EV) (α0 β : EV)
    (hαβ : α0 < β)
    (H : ∀ m a, a < β → max a (min β (eval m a)) = max a (min β (tval m))) :
    ∀ (ms : List Move) (v M a : EV), a = max α0 v → a < β →
      max α0 (min β v) = max α0 (min β M) →
      max α0 (min β (ab_max_loop eval β ms v a)) =
        max α0 (min β (ms.foldl (fun w m => max w (tval m)) M))
  | [], v, M, a, ha, hv, hM => by
    simp only [ab_max_loop, List.foldl_nil]
    exact hM
  | m :: ms, v, M, a, ha, hv, hM => by
    subst ha
    have hvβ : v < β := lt_of_le_of_lt (le_max_right α0 v) hv
    have hCv : max α0 (min β v) = max α0 v := by rw [min_eq_right hvβ.le]
    have hstep : max α0 (min β (max v (eval m (max α0 v)))) =
        max α0 (min β (max M (tval m))) := by
      calc max α0 (min β (max v (eval m (max α0 v))))
          = max α0 (max (min β v) (min β (eval m (max α0 v)))) := by
            rw [min_max_distrib_left]
        _ = max (max α0 (min β v)) (min β (eval m (max α0 v))) := by rw [← max_assoc]
        _ = max (max α0 v) (min β (eval m (max α0 v))) := by rw [hCv]
        _ = max (max α0 v) (min β (tval m)) := H m (max α0 v) hv
        _ = max (max α0 (min β v)) (min β (tval m)) := by rw [hCv]
        _ = max (max α0 (min β M)) (min β (tval m)) := by rw [hM]
        _ = max α0 (max (min β M) (min β (tval m))) := by rw [max_assoc]
        _ = max α0 (min β (max M (tval m))) := by rw [← min_max_distrib_left]
    have hα' : max (max α0 v) (max v (eval m (max α0 v))) =
        max α0 (max v (eval m (max α0 v))) := by
      rw [max_assoc, ← max_assoc v v _, max_self]
    simp only [ab_max_loop, List.foldl_cons]
    split
    next hbr =>
      rw [hα'] at hbr
      have hβv' : β ≤ max v (eval m (max α0 v)) := by
        by_contra hc
        push_neg at hc
        exact absurd hbr (not_le.mpr (max_lt hαβ hc))
      have hlhs : max α0 (min β (max v (eval m (max α0 v)))) = β := by
        rw [min_eq_left hβv', max_eq_right hαβ.le]
      have hrhs : max α0 (min β (max M (tval m))) = β := by
        rw [← hstep]
        exact hlhs
      have hX : min β (max M (tval m)) = β := by
        by_contra hc
        have hXlt : min β (max M (tval m)) < β :=
          lt_of_le_of_ne (min_le_left _ _) hc
        exact absurd hrhs (ne_of_lt (max_lt hαβ hXlt))
      have hβMt : β ≤ max M (tval m) := min_eq_left_iff.mp hX
      have hfold : β ≤ ms.foldl (fun w m => max w (tval m)) (max M (tval m)) :=
        le_trans hβMt (le_foldl_max tval ms _)
      rw [hlhs, min_eq_left hfold, max_eq_right hαβ.le]
    next hbr =>
      rw [hα'] at hbr ⊢
      exact ab_max_loop_clamp eval tval α0 β hαβ H ms _ (max M (tval m)) _ rfl
        (not_le.mp hbr) hstep

/-- Knuth–Moore style invariant for the Min loop. -/
theorem ab_min_loop_clamp (eval : Move → EV → EV) (tval : Move → EV) (α β0 : EV)
    (hαβ : α < β0)
    (H : ∀ m b, α < b → max α (min b (eval m b)) = max α (min b (tval m))) :
    ∀ (ms : List Move) (v M b : EV), b = min β0 v → α < b →
      max α (min β0 v) = max α (min β0 M) →
      max α (min β0 (ab_min_loop eval α ms v b)) =
        max α (min β0 (ms.foldl (fun w m => min w (tval m)) M))
  | [], v, M, b, hb, hv, hM => by
    simp only [ab_min_loop, List.foldl_nil]
    exact hM
  | m :: ms, v, M, b, hb, hv, hM => by
    subst hb
    have hstep : max α (min β0 (min v (eval m (min β0 v)))) =
        max α (min β0 (min M (tval m))) := by
      calc max α (min β0 (min v (eval m (min β0 v))))
          = max α (min (min β0 v) (eval m (min β0 v))) := by rw [← min_assoc]
        _ = max α (min (min β0 v) (tval m)) := H m (min β0 v) hv
        _ = min (max α (min β0 v)) (max α (tval m)) := by rw [max_min_distrib_left]
        _ = min (max α (min β0 M)) (max α (tval m)) := by rw [hM]
        _ = max α (min (min β0 M) (tval m)) := by rw [← max_min_distrib_left]
        _ = max α (min β0 (min M (tval m))) := by rw [min_assoc]
    have hβ' : min (min β0 v) (min v (eval m (min β0 v))) =
        min β0 (min v (eval m (min β0 v))) := by
      rw [min_assoc, ← min_assoc v v _, min_self]
    simp only [ab_min_loop, List.foldl_cons]
    split
    next hbr =>
      rw [hβ'] at hbr
      have hv'α : min v (eval m (min β0 v)) ≤ α := by
        by_contra hc
        push_neg at hc
        exact absurd hbr (not_le.mpr (lt_min hαβ hc))
      have hlhs : max α (min β0 (min v (eval m (min β0 v)))) = α := by
        rw [max_eq_left (le_trans (min_le_right _ _) hv'α)]
      have hrhs : max α (min β0 (min M (tval m))) = α := by
        rw [← hstep]
        exact hlhs
      have hMtα : min β0 (min M (tval m)) ≤ α := by
        by_contra hc
        push_neg at hc
        rw [max_eq_right hc.le] at hrhs
        exact absurd hrhs (ne_of_gt hc)
      have hfold : min β0 (ms.foldl (fun w m => min w (tval m)) (min M (tval m))) ≤ α :=
        le_trans (min_le_min (le_refl β0) (foldl_min_le tval ms _)) hMtα
      rw [hlhs, max_eq_left hfold]
    next hbr =>
      rw [hβ'] at hbr ⊢
      exact ab_min_loop_clamp eval tval α β0 hαβ H ms _ (min M (tval m)) _ rfl
        (not_le.mp hbr) hstep

/-- The pruned `_minimax_value` agrees with the brute-force minimax value
within the `(α, β)` window clamp. -/
theorem minimax_clamp (app : ScrabbleState → Move → ScrabbleState)
    (is_valid_word : List Char → Bool) (mx : Nat) : ∀ (d : Nat) (s : ScrabbleState)
    (α β : EV), α < β →
    max α (min β (minimax_value app is_valid_word mx d s α β)) =
      max α (min β (brute_force_value app is_valid_word mx d s))
  | 0, s, α, β, hαβ => rfl
  | d + 1, s, α, β, hαβ => by
    simp only [minimax_value, brute_force_value]
    split
    · rfl
    next hterm =>
      split
      · exact ab_max_loop_clamp _ _ α β hαβ
          (fun m a ha => minimax_clamp app is_valid_word mx d (app s m) a β ha)
          _ ⊥ ⊥ α (max_eq_left bot_le).symm hαβ rfl
      · exact ab_min_loop_clamp _ _ α β hαβ
          (fun m b hb => minimax_clamp app is_valid_word mx d (app s m) α b hb)
          _ ⊤ ⊤ β (min_eq_left le_top).symm hαβ rfl

/-- The pruned root loop selects the same move and value as the exact one. -/
theorem ab_root_loop_eq (eval : Move → EV → EV) (tval : Move → EV)
    (H : ∀ m a, a < ⊤ → max a (eval m a) = max a (tval m))
    (Hlt : ∀ m a, a < ⊤ → eval m a < ⊤) :
    ∀ (ms : List Move) (bm : Option Move) (bv : EV), bv < ⊤ →
      ab_root_loop eval ms bm bv bv = bf_root_loop tval ms bm bv
  | [], _, _, _ => rfl
  | m :: ms, bm, bv, hbv => by
    simp only [ab_root_loop, bf_root_loop]
    have hH := H m bv hbv
    by_cases hlt : bv < eval m bv
    · have ht : tval m = eval m bv := by
        rw [max_eq_right hlt.le] at hH
        rcases le_or_lt (tval m) bv with hle | hgt
        · rw [max_eq_left hle] at hH
          exact absurd hH.symm (ne_of_lt hlt)
        · rw [max_eq_right hgt.le] at hH
          exact hH.symm
      simp only [if_pos hlt, if_pos (show bv < tval m from ht ▸ hlt)]
      rw [max_eq_right hlt.le, ht]
      exact ab_root_loop_eq eval tval H Hlt ms (some m) (eval m bv) (Hlt m bv hbv)
    · have ht : ¬ bv < tval m := by
        rw [max_eq_left (not_lt.mp hlt)] at hH
        rcases le_or_lt (tval m) bv with hle | hgt
        · exact not_lt.mpr hle
        · rw [max_eq_right hgt.le] at hH
          rw [← hH]
          exact lt_irrefl bv
      simp only [if_neg hlt, if_neg ht]
      rw [max_self]
      exact ab_root_loop_eq eval tval H Hlt ms bm bv hbv

/-- C5: alpha-beta equivalence — over any deterministic successor function
`app` (i.e. any fixed game tree obtained by resolving the random tile
draws), `AlphaBetaMinimax.find_best_move` computes the same best root value
and selects the same root move (keep-first-on-ties) as a brute-force
depth-limited minimax evaluation of the same game tree without pruning. -/
theorem alpha_beta_equals_brute_force (app : ScrabbleState → Move → ScrabbleState)
    (is_valid_word : List Char → Bool) (max_depth : Nat) (s : ScrabbleState) :
    ab_find_best_move app is_valid_word max_depth s =
      brute_force_find_best_move app is_valid_word max_depth s := by
  unfold ab_find_best_move brute_force_find_best_move
  dsimp only
  by_cases hmv : get_legal_moves is_valid_word s s.current_player = []
  · rw [if_pos hmv, if_pos hmv]
  · rw [if_neg hmv, if_neg hmv]
    apply ab_root_loop_eq
    · intro m a ha
      have h := minimax_clamp app is_valid_word s.current_player (max_depth - 1)
        (app s m) a ⊤ ha
      rwa [min_eq_right le_top, min_eq_right le_top] at h
    · intro m a _
      exact minimax_value_lt_top app is_valid_word s.current_player (max_depth - 1)
        (app s m) a ⊤
    · exact bot_lt_top

end Scrabble
